import Mathlib

/-!
Shallow embedding of the rustdoc render-core indexer
(`src/librustdoc/html/render.rs`): the declaration-path table and its
insertion policy, the implementor registry, the search-index crawl
performed by `Cache::fold_item`, the orphan resolution and index
compaction performed by `build_index`, the search-signature encoding
(`get_index_search_type` / `IndexItemFunctionType::to_json`), and the
anchor-id derivation (`derive_id` / `reset_ids`).

Machinery from sibling modules that is not part of the supplied source
(`clean::ItemEnum` tags, `ItemType` discriminants, `plain_summary_line`)
is modelled minimally, as noted at each definition.
-/

namespace RustdocRender

/-- `DefId`: stable identifier of a declaration; `krate` is the
compilation unit, `index` the per-unit index (`CRATE_DEF_INDEX` marks
the crate root). -/
structure DefId where
  krate : Nat
  index : Nat
deriving DecidableEq, Repr

/-- `CRATE_DEF_INDEX`: the def-index of a crate's root module. -/
def crateDefIndex : Nat := 0

/-- Item kind tags. Modelled from the source's `clean::ItemEnum`
constructors and the `ItemType` enum (defined in `item_type.rs`, not in
the supplied sources) collapsed into one enum; `item.type_()` is then
the identity on tags, which preserves every comparison the supplied
code performs. -/
inductive ItemType where
  | Module
  | Struct
  | Union
  | Enum
  | Function
  | Typedef
  | Static
  | Trait
  | Impl
  | TyMethod
  | Method
  | StructField
  | Variant
  | Primitive
  | AssociatedType
  | Constant
  | AssociatedConst
  | ForeignType
  | ForeignFunction
  | ForeignStatic
deriving DecidableEq, Repr

/-- `short as usize` in `build_index`: a numbering of the kind tags
(the concrete discriminant values live in `item_type.rs`, outside the
supplied sources; only injectivity matters here). -/
def ItemType.toNat : ItemType → Nat
  | .Module => 0
  | .Struct => 1
  | .Union => 2
  | .Enum => 3
  | .Function => 4
  | .Typedef => 5
  | .Static => 6
  | .Trait => 7
  | .Impl => 8
  | .TyMethod => 9
  | .Method => 10
  | .StructField => 11
  | .Variant => 12
  | .Primitive => 13
  | .AssociatedType => 14
  | .Constant => 15
  | .AssociatedConst => 16
  | .ForeignType => 17
  | .ForeignFunction => 18
  | .ForeignStatic => 19

/-- The subset of `clean::Type` shapes consumed by
`get_index_type_name` / `get_generics`; `otherTy` stands for every
shape those functions map to `None`. -/
inductive CleanType where
  | resolvedPath (lastSegment : String) (typeGenerics : List CleanType)
  | generic (s : String)
  | primitiveTy (p : String)
  | borrowedRef (inner : CleanType)
  | otherTy

/-- `FnDecl`: inputs and (`Return`-shaped) output of a function
signature; `output = none` models `DefaultReturn`. -/
structure FnDecl where
  inputs : List CleanType
  output : Option CleanType

/-- The `for_` type of an `impl` block, as far as the supplied code
inspects it: a `ResolvedPath` target, a primitive target, or anything
else. -/
inductive ImplTarget where
  | resolvedPath (did : DefId)
  | primitiveTy (p : String)
  | otherTarget
deriving DecidableEq, Repr

/-- `clean::Type::def_id` restricted to the modelled target shapes. -/
def ImplTarget.defId : ImplTarget → Option DefId
  | .resolvedPath did => some did
  | _ => none

/-- `clean::Type::primitive_type` restricted to the modelled target
shapes. -/
def ImplTarget.primitiveType : ImplTarget → Option String
  | .primitiveTy p => some p
  | _ => none

/-- The per-item data of a `clean::Item`, flattened: `stripped` models
the `StrippedItem` wrapper, `kind` the inner variant, `typedefIsAssoc`
the `TypedefItem(_, true)` payload, `implTrait`/`implFor` the `Impl`
payload, `visibilityIsSome` the `item.visibility.is_some()` test on
primitives, `doc` the `doc_value()`, and `decl` the function
declaration payload of function-like items. -/
structure ItemData where
  name : Option String
  defId : DefId
  stripped : Bool
  kind : ItemType
  typedefIsAssoc : Bool := false
  implTrait : Option DefId := none
  implFor : ImplTarget := .otherTarget
  visibilityIsSome : Bool := false
  doc : String := ""
  decl : FnDecl := ⟨[], none⟩

mutual
/-- A `clean::Item`: its data plus child items. -/
inductive Item where
  | node : ItemData → ItemList → Item
/-- Children of a `clean::Item`. -/
inductive ItemList where
  | nil : ItemList
  | cons : Item → ItemList → ItemList
end

/-- The data at the root of an item. -/
def dataOf : Item → ItemData
  | .node d _ => d

/-- One search-index `Type`: a lowercased name (absent when the type
could not be named) plus optional generic-argument names. The source
struct is named `Type`, which Lean reserves. -/
structure Ty where
  name : Option String
  generics : Option (List String)
deriving DecidableEq, Repr

/-- `IndexItemFunctionType`: full searchable type of a function. -/
structure IndexItemFunctionType where
  inputs : List Ty
  output : Option Ty
deriving DecidableEq, Repr

/-- One entry of the JS search index (`struct IndexItem`). -/
structure IndexItem where
  ty : ItemType
  name : String
  path : String
  desc : String
  parent : Option DefId
  parentIdx : Option Nat
  searchType : Option IndexItemFunctionType
deriving DecidableEq, Repr

/-- One implementor record (`struct Implementor`): the impl item's own
id plus the `Impl` payload the supplied code clones into it. -/
structure Implementor where
  defId : DefId
  implTrait : Option DefId
  implFor : ImplTarget
deriving DecidableEq, Repr

/-- The crawl state: the fields of `struct Cache` that the supplied
code reads or writes while folding, with the fixed inputs
(`masked_crates`, `access_levels`, `primitive_locations`) carried
alongside. Finite maps are modelled as functions into `Option`. -/
structure Cache where
  paths : DefId → Option (List String × ItemType)
  implementors : DefId → List Implementor
  searchIndex : List IndexItem
  orphanImplItems : List (DefId × ItemData)
  stack : List String
  parentStack : List DefId
  strippedMod : Bool
  parentIsTraitImpl : Bool
  maskedCrates : List Nat
  accessLevels : DefId → Bool
  primitiveLocations : String → Option DefId

/-- The starting crawl state for given fixed inputs. -/
def initCache (masked : List Nat) (access : DefId → Bool)
    (primLocs : String → Option DefId) : Cache :=
  { paths := fun _ => none
    implementors := fun _ => []
    searchIndex := []
    orphanImplItems := []
    stack := []
    parentStack := []
    strippedMod := false
    parentIsTraitImpl := false
    maskedCrates := masked
    accessLevels := access
    primitiveLocations := primLocs }

/-- `get_index_type_name`: reduce a type to a searchable name; the
boolean is `accept_generic`. -/
def getIndexTypeName : CleanType → Bool → Option String
  | .resolvedPath seg _, _ => some seg
  | .generic s, true => some s
  | .primitiveTy p, _ => some p
  | .borrowedRef t, acceptGeneric => getIndexTypeName t acceptGeneric
  | _, _ => none

/-- `clean::Type::generics`: the type arguments of a resolved path. -/
def CleanType.typeGenericsOf : CleanType → Option (List CleanType)
  | .resolvedPath _ gs => some gs
  | _ => none

/-- `get_generics`: names of a type's generic arguments, or `none`
when there are none that can be named. -/
def getGenerics (t : CleanType) : Option (List String) :=
  t.typeGenericsOf.bind fun types =>
    let r := (types.filterMap fun u => getIndexTypeName u false).map
      fun s => s.toLower
    if r.isEmpty then none else some r

/-- `get_index_type`. -/
def getIndexType (t : CleanType) : Ty :=
  { name := (getIndexTypeName t true).map fun s => s.toLower
    generics := getGenerics t }

/-- `get_index_search_type`: a searchable signature for function,
method and required-method items, `none` for everything else
(a `StrippedItem` wrapper never matches the function patterns). -/
def getIndexSearchType (item : ItemData) : Option IndexItemFunctionType :=
  if item.stripped = false ∧
      (item.kind = .Function ∨ item.kind = .Method ∨ item.kind = .TyMethod) then
    some { inputs := item.decl.inputs.map getIndexType
           output := item.decl.output.map getIndexType }
  else none

/-- The serialized form of an optional signature: `null` or the full
inputs/output record. -/
inductive SigJson where
  | null
  | sig (inputs : List Ty) (output : Option Ty)
deriving DecidableEq, Repr

/-- `IndexItemFunctionType::to_json`: if any input or output part has
no name, the whole signature serializes to `null`. -/
def IndexItemFunctionType.serialize (f : IndexItemFunctionType) : SigJson :=
  if (f.inputs ++ f.output.toList).any (fun t => t.name.isNone) then .null
  else .sig f.inputs f.output

/-- `plain_summary_line` lives in the markdown module, outside the
supplied sources. Modelled from the spec: the one-line description of
an item's docs, taken here as the already-one-line `doc` field. -/
def plainSummaryLine (doc : String) : String := doc

/-- `path.join("::")`. -/
def joinPath (path : List String) : String := String.intercalate "::" path

/-- Lines 1200-1213 of `Cache::fold_item`: collect the implementors of
traits. The gate checks the impl item's own crate against
`masked_crates`, then requires a trait, then checks the target type's
crate (when the target has an id); the trait's own crate is not
consulted. A stripped impl is wrapped in `StrippedItem` and does not
match `ImplItem`. -/
def collectImplementors (c : Cache) (item : ItemData) : Cache :=
  if item.stripped = false ∧ item.kind = .Impl then
    if c.maskedCrates.contains item.defId.krate then c
    else
      match item.implTrait with
      | some did =>
        (match item.implFor.defId with
         | some d =>
           if c.maskedCrates.contains d.krate then c
           else
             { c with implementors := fun k =>
                 if k = did then
                   c.implementors did ++ [⟨item.defId, item.implTrait, item.implFor⟩]
                 else c.implementors k }
         | none =>
           { c with implementors := fun k =>
               if k = did then
                 c.implementors did ++ [⟨item.defId, item.implTrait, item.implFor⟩]
               else c.implementors k })
      | none => c
  else c

/-- What the indexing section of one `fold_item` visit emits: at most
one search-index entry and at most one orphan. -/
structure IndexOut where
  entry : Option IndexItem
  orphan : Option (DefId × ItemData)

/-- Lines 1215-1283 of `Cache::fold_item`: decide the parent id, the
parent path and the inherent-impl-item flag for the visited item, then
either push a search-index entry, record an orphan, or do nothing.
The source's `parent_stack.last().unwrap()` / `stack[..len - 1]`
panics (unreachable on upstream-well-formed trees) are modelled as the
no-entry outcome. -/
def indexItemStep (c : Cache) (item : ItemData) : IndexOut :=
  match item.name with
  | none => ⟨none, none⟩
  | some s =>
    let pp : (Option DefId × Option (List String)) × Bool :=
      if item.stripped = true then ((none, none), false)
      else if (item.kind = .AssociatedConst ∨
               (item.kind = .Typedef ∧ item.typedefIsAssoc = true)) ∧
              c.parentIsTraitImpl = true then
        ((none, none), false)
      else if item.kind = .AssociatedType ∨ item.kind = .TyMethod ∨
              item.kind = .StructField ∨ item.kind = .Variant then
        match c.parentStack with
        | last :: _ => ((some last, some c.stack.dropLast), false)
        | [] => ((none, none), false)
      else if item.kind = .Method ∨ item.kind = .AssociatedConst then
        match c.parentStack with
        | [] => ((none, none), false)
        | last :: _ =>
          let path : Option (List String) :=
            match c.paths last with
            | some (fqp, k) =>
              if k = .Trait ∨ k = .Struct ∨ k = .Union ∨ k = .Enum then
                some fqp.dropLast
              else some c.stack
            | none => none
          ((some last, path), true)
      else ((none, some c.stack), false)
    match pp with
    | ((parent, some path), isInherentImplItem) =>
      if isInherentImplItem = true ∨ c.strippedMod = false then
        if item.defId.index ≠ crateDefIndex then
          ⟨some { ty := item.kind
                  name := s
                  path := joinPath path
                  desc := plainSummaryLine item.doc
                  parent := parent
                  parentIdx := none
                  searchType := getIndexSearchType item }, none⟩
        else ⟨none, none⟩
      else ⟨none, none⟩
    | ((some parent, none), true) => ⟨none, some (parent, item)⟩
    | _ => ⟨none, none⟩

/-- Append the outcome of `indexItemStep` to the cache. -/
def pushIndexOut (c : Cache) (out : IndexOut) : Cache :=
  { c with searchIndex := c.searchIndex ++ out.entry.toList
           orphanImplItems := c.orphanImplItems ++ out.orphan.toList }

/-- Lines 1285-1292 of `Cache::fold_item`: push a non-empty name onto
the path stack, reporting whether a push happened. -/
def pushName (c : Cache) (item : ItemData) : Cache × Bool :=
  match item.name with
  | some n =>
    if n = "" then (c, false)
    else ({ c with stack := c.stack ++ [n] }, true)
  | none => (c, false)

/-- The kinds matched by the first arm of the paths-recording match
(lines 1294-1301). -/
def pathsRecordedKind : ItemType → Bool
  | .Struct | .Enum | .Typedef | .Trait | .Function | .Module
  | .ForeignFunction | .ForeignStatic | .Constant | .Static
  | .Union | .ForeignType => true
  | _ => false

/-- Lines 1294-1330 of `Cache::fold_item`: keep track of the fully
qualified path of the item (the cache's `stack` here is the stack with
the item's own name already pushed). The re-export policy: insert
when the id is absent, or when the id is publicly reachable. Variants
are linked to their parent enum; visible primitives are always
recorded. A `StrippedItem` wrapper matches none of the arms. -/
def recordPaths (c : Cache) (item : ItemData) : Cache :=
  if item.stripped = false ∧ pathsRecordedKind item.kind = true ∧
      c.strippedMod = false then
    if (c.paths item.defId).isSome = false ∨ c.accessLevels item.defId = true then
      { c with paths := fun d =>
          if d = item.defId then some (c.stack, item.kind) else c.paths d }
    else c
  else if item.stripped = false ∧ item.kind = .Variant ∧ c.strippedMod = false then
    { c with paths := fun d =>
        if d = item.defId then some (c.stack.dropLast, ItemType.Enum)
        else c.paths d }
  else if item.stripped = false ∧ item.kind = .Primitive ∧
      item.visibilityIsSome = true then
    { c with paths := fun d =>
        if d = item.defId then some (c.stack, item.kind) else c.paths d }
  else c

/-- Lines 1332-1363 of `Cache::fold_item`: maintain the parent (type
context) stack; returns the updated cache and whether a parent was
pushed. For an impl the subject is either the resolved target or the
location of a primitive target. -/
def pushParent (c : Cache) (item : ItemData) : Cache × Bool :=
  if item.stripped = false ∧
      (item.kind = .Trait ∨ item.kind = .Enum ∨ item.kind = .ForeignType ∨
       item.kind = .Struct ∨ item.kind = .Union) then
    ({ c with parentStack := item.defId :: c.parentStack
              parentIsTraitImpl := false }, true)
  else if item.stripped = false ∧ item.kind = .Impl then
    let c1 := { c with parentIsTraitImpl := item.implTrait.isSome }
    match item.implFor with
    | .resolvedPath did => ({ c1 with parentStack := did :: c1.parentStack }, true)
    | t =>
      match (t.primitiveType).bind c1.primitiveLocations with
      | some did => ({ c1 with parentStack := did :: c1.parentStack }, true)
      | none => (c1, false)
  else (c, false)

/-- Lines 1179-1186 of `Cache::fold_item`: entering a stripped module
sets the inherited stripped flag (the old value is restored on
exit). -/
def stripStep (c : Cache) (item : ItemData) : Cache :=
  if item.stripped = true ∧ item.kind = .Module then
    { c with strippedMod := true }
  else c

mutual
/-- `Cache::fold_item` restricted to its effect on the cache: the
stripped-module flag, implementor collection, search indexing, path
recording and parent-stack maintenance, recursion into children, then
restoration of the per-visit state. (The trailing impl-hoarding block
of the source only fills `Cache::impls` and reshapes the returned
tree, neither of which is modelled.) -/
def crawlItem (c : Cache) : Item → Cache
  | .node item children =>
    let origStrippedMod := c.strippedMod
    let c1 := stripStep c item
    let c2 := collectImplementors c1 item
    let c3 := pushIndexOut c2 (indexItemStep c2 item)
    let pn := pushName c3 item
    let c5 := recordPaths pn.1 item
    let origPTI := c5.parentIsTraitImpl
    let pr := pushParent c5 item
    let c7 := crawlList pr.1 children
    let c8 := if pn.2 then { c7 with stack := c7.stack.dropLast } else c7
    let c9 := if pr.2 then { c8 with parentStack := c8.parentStack.tail } else c8
    { c9 with strippedMod := origStrippedMod, parentIsTraitImpl := origPTI }

/-- `DocFolder::fold_item_recur`, restricted to its effect on the
cache: fold the children left to right. -/
def crawlList (c : Cache) : ItemList → Cache
  | .nil => c
  | .cons i rest => crawlList (crawlItem c i) rest
end

/-- Lines 791-805 of `build_index`: attach all orphan items to the
type's definition if the type has since been learned; an orphan whose
owner is still unknown is skipped. The source's
`item.name.clone().unwrap()` cannot fail because orphans are pushed
only under the `if let Some(ref s) = item.name` guard; it is modelled
by `Option.getD`. -/
def resolveOrphans (paths : DefId → Option (List String × ItemType)) :
    List (DefId × ItemData) → List IndexItem
  | [] => []
  | (did, item) :: rest =>
    (match paths did with
     | some (fqp, _) =>
       [{ ty := item.kind
          name := item.name.getD ""
          path := joinPath fqp.dropLast
          desc := plainSummaryLine item.doc
          parent := some did
          parentIdx := none
          searchType := getIndexSearchType item }]
     | none => []) ++ resolveOrphans paths rest

/-- The compaction state of `build_index`: the `nodeid_to_pathid`
memo, the `lastpathid` counter and the emitted `crate_paths` side
table of `(kind, last path component)` records. -/
structure SlotState where
  nodeidToPathid : List (DefId × Nat)
  lastpathid : Nat
  cratePaths : List (Nat × String)
deriving DecidableEq, Repr

/-- Lookup in the `nodeid_to_pathid` association list (the
`FxHashMap` of `build_index`). -/
def lookupId : List (DefId × Nat) → DefId → Option Nat
  | [], _ => none
  | (k, v) :: rest, d => if d = k then some v else lookupId rest d

/-- Lines 813-825 of `build_index`: map an entry's optional parent id
to its compact slot, assigning and memoizing a fresh sequential slot
(and emitting one `crate_paths` record) on first sight. The two
`unwrap`s of the source (`paths.get(&nodeid)` and `fqp.last()`) are
modelled as the `none` (panic) outcome. -/
def assignParentIdx (paths : DefId → Option (List String × ItemType))
    (st : SlotState) : Option DefId → Option (SlotState × Option Nat)
  | none => some (st, none)
  | some nodeid =>
    match lookupId st.nodeidToPathid nodeid with
    | some pathid => some (st, some pathid)
    | none =>
      match paths nodeid with
      | none => none
      | some (fqp, short) =>
        match fqp.getLast? with
        | none => none
        | some lastComponent =>
          some ({ nodeidToPathid := (nodeid, st.lastpathid) :: st.nodeidToPathid
                  lastpathid := st.lastpathid + 1
                  cratePaths := st.cratePaths ++ [(short.toNat, lastComponent)] },
                some st.lastpathid)

/-- The full loop state of the `for item in search_index` loop of
`build_index`: slots, the `lastpath` run-compression register, and the
serialized `crate_items` (kept as records; their JSON array form
forgets only the `parent` field). -/
structure BuildState where
  slots : SlotState
  lastpath : String
  crateItems : List IndexItem
deriving DecidableEq, Repr

/-- The initial loop state of `build_index`. -/
def initBuildState : BuildState := ⟨⟨[], 0, []⟩, "", []⟩

/-- Blank an item's path when it repeats the previous item's path
(the `item.path.clear()` of line 829). -/
def blankPath (lastpath : String) (item : IndexItem) : IndexItem :=
  if lastpath = item.path then { item with path := "" } else item

/-- Lines 812-834 of `build_index`, one iteration: fill `parent_idx`,
blank the path if it repeats the previous item's path, and emit the
item. -/
def buildStep (paths : DefId → Option (List String × ItemType))
    (st : BuildState) (item : IndexItem) : Option BuildState :=
  (assignParentIdx paths st.slots item.parent).map fun r =>
    let item1 := { item with parentIdx := r.2 }
    { slots := r.1
      lastpath := if st.lastpath = item1.path then st.lastpath else item1.path
      crateItems := st.crateItems ++ [blankPath st.lastpath item1] }

theorem blankPath_parent (lastpath : String) (item : IndexItem) :
    (blankPath lastpath item).parent = item.parent := by
  unfold blankPath
  split <;> rfl

theorem blankPath_parentIdx (lastpath : String) (item : IndexItem) :
    (blankPath lastpath item).parentIdx = item.parentIdx := by
  unfold blankPath
  split <;> rfl

/-- The `for item in search_index` loop of `build_index`; `none`
models a panic of one of the loop's `unwrap`s. -/
def buildLoop (paths : DefId → Option (List String × ItemType)) :
    BuildState → List IndexItem → Option BuildState
  | st, [] => some st
  | st, it :: rest =>
    match buildStep paths st it with
    | none => none
    | some st1 => buildLoop paths st1 rest

/-- `build_index` on a finished cache: resolve the orphans into the
search index, then run the compaction loop. -/
def buildIndex (c : Cache) : Option BuildState :=
  buildLoop c.paths initBuildState
    (c.searchIndex ++ resolveOrphans c.paths c.orphanImplItems)

/-- The path-run compression of lines 827-832 in isolation, on the
per-entry path strings, carrying the `lastpath` register. -/
def compressFrom (lastpath : String) : List String → List String
  | [] => []
  | p :: ps =>
    if lastpath = p then "" :: compressFrom lastpath ps
    else p :: compressFrom p ps

/-- Path-run compression started from the empty `lastpath`. -/
def compressPaths (ps : List String) : List String := compressFrom "" ps

/-- Modelled from the spec: consumers of the serialized index "track
the last seen non-blank path" to reconstruct each entry's path; the
consumer itself (the search JS) is outside the supplied sources. -/
def decompressFrom (carry : String) : List String → List String
  | [] => []
  | p :: ps =>
    if p = "" then carry :: decompressFrom carry ps
    else p :: decompressFrom p ps

/-- Reconstruction started from an empty carry. -/
def decompressPaths (ps : List String) : List String := decompressFrom "" ps

/-- `init_ids`: the id strings pre-seeded (with counter 1) for
embedded rendering. -/
def initIds : List (String × Nat) :=
  [("main", 1), ("search", 1), ("help", 1), ("TOC", 1),
   ("render-detail", 1), ("associated-types", 1), ("associated-const", 1),
   ("required-methods", 1), ("provided-methods", 1), ("implementors", 1),
   ("implementors-list", 1), ("methods", 1), ("deref-methods", 1),
   ("implementations", 1)]

/-- The `USED_ID_MAP` state, as a map from id string to next counter. -/
def UsedIdMap := String → Option Nat

/-- Map update (`FxHashMap::insert`, overwriting). -/
def UsedIdMap.insert (m : UsedIdMap) (k : String) (v : Nat) : UsedIdMap :=
  fun s => if s = k then some v else m s

/-- `reset_ids`: reinitialize `USED_ID_MAP`, pre-seeded when rendering
embedded. -/
def resetIds (embedded : Bool) : UsedIdMap :=
  if embedded then fun s => initIds.lookup s else fun _ => none

/-- `derive_id`: return the candidate itself when unseen, otherwise
`candidate-counter` (bumping the candidate's counter); either way the
returned id is then recorded with counter 1. -/
def deriveId (m : UsedIdMap) (candidate : String) : String × UsedIdMap :=
  match m candidate with
  | none => (candidate, m.insert candidate 1)
  | some a =>
    let id := candidate ++ "-" ++ toString a
    let m1 := m.insert candidate (a + 1)
    (id, m1.insert id 1)

/-- A sequence of `derive_id` calls, returning the ids in order. -/
def deriveIds (m : UsedIdMap) : List String → List String × UsedIdMap
  | [] => ([], m)
  | cand :: rest =>
    let r := deriveId m cand
    let rr := deriveIds r.2 rest
    (r.1 :: rr.1, rr.2)

/-! ## Claim C7: all-or-nothing signature encoding -/

/-- Claim C7: for a function-like item's searchable signature, the
serialized form is `null` exactly when some argument or return part
could not be reduced to a name, and otherwise the whole signature
(all inputs and the output) is encoded. -/
theorem c7_signature_all_or_nothing (f : IndexItemFunctionType) :
    (f.serialize = SigJson.null ↔
      ((∃ t ∈ f.inputs, t.name = none) ∨ (∃ t ∈ f.output.toList, t.name = none))) ∧
    (f.serialize ≠ SigJson.null → f.serialize = SigJson.sig f.inputs f.output) := by
  unfold IndexItemFunctionType.serialize
  constructor
  · split
    · rename_i h
      simp only [List.any_eq_true, List.mem_append, Option.isNone_iff_eq_none] at h
      simp only [true_iff]
      obtain ⟨t, ht, hn⟩ := h
      rcases ht with ht | ht
      · exact Or.inl ⟨t, ht, hn⟩
      · exact Or.inr ⟨t, ht, hn⟩
    · rename_i h
      simp only [List.any_eq_true, List.mem_append, Option.isNone_iff_eq_none] at h
      push_neg at h
      constructor
      · intro hcontra
        exact absurd hcontra (by simp)
      · rintro (⟨t, ht, hn⟩ | ⟨t, ht, hn⟩)
        · exact absurd hn (h t (Or.inl ht))
        · exact absurd hn (h t (Or.inr ht))
  · split
    · intro h
      exact absurd rfl h
    · intro _
      rfl

/-! ## Claim C9: distinctness of derived anchor ids -/

/-- Claim C9 (code bug evaluation): starting from `reset_ids(false)`,
the call sequence `derive_id("a-1")`, `derive_id("a")`,
`derive_id("a")` returns `"a-1"`, `"a"`, `"a-1"`: the third call
repeats the first call's result, so `derive_id`'s results within one
reset epoch are not pairwise distinct as the claim requires. -/
theorem c9_derive_id_collision :
    (deriveIds (resetIds false) ["a-1", "a", "a"]).1 = ["a-1", "a", "a-1"] ∧
    ¬ (["a-1", "a", "a-1"] : List String).Nodup := by
  constructor
  · rfl
  · decide

/-! ## Claim C4: path-run compression round trip -/

theorem compressFrom_cons (lastpath p : String) (ps : List String) :
    compressFrom lastpath (p :: ps) =
      (if lastpath = p then "" else p) :: compressFrom p ps := by
  by_cases h : lastpath = p
  · subst h
    simp [compressFrom]
  · simp [compressFrom, h]

theorem compressFrom_length (ps : List String) :
    ∀ lastpath, (compressFrom lastpath ps).length = ps.length := by
  induction ps with
  | nil => intro lastpath; rfl
  | cons p ps ih =>
    intro lastpath
    rw [compressFrom_cons]
    simp [ih p]

theorem decompress_compress_from (ps : List String) :
    ∀ lastpath, "" ∉ ps →
      decompressFrom lastpath (compressFrom lastpath ps) = ps := by
  induction ps with
  | nil => intro lastpath _; rfl
  | cons p ps ih =>
    intro lastpath h
    have hp : p ≠ "" := fun hc => h (by simp [hc])
    have hps : "" ∉ ps := fun hc => h (by simp [hc])
    rw [compressFrom_cons]
    by_cases hl : lastpath = p
    · rw [if_pos hl]
      unfold decompressFrom
      rw [if_pos rfl, hl, ih p hps]
    · rw [if_neg hl]
      unfold decompressFrom
      rw [if_neg hp, ih p hps]

theorem compressFrom_head (ps : List String) (lastpath : String) :
    (compressFrom lastpath ps)[0]? =
      (ps[0]?).map fun cur => if lastpath = cur then "" else cur := by
  cases ps with
  | nil => rfl
  | cons p ps => rw [compressFrom_cons]; simp

theorem compressFrom_succ (ps : List String) :
    ∀ lastpath i,
      (compressFrom lastpath ps)[i + 1]? =
        (ps[i]?).bind fun prev =>
          (ps[i + 1]?).map fun cur => if prev = cur then "" else cur := by
  induction ps with
  | nil => intro lastpath i; rfl
  | cons p ps ih =>
    intro lastpath i
    rw [compressFrom_cons]
    cases i with
    | zero =>
      simp only [List.getElem?_cons_succ, List.getElem?_cons_zero, Option.bind_some]
      exact compressFrom_head ps p
    | succ j =>
      simp only [List.getElem?_cons_succ]
      exact ih p j

/-- Claim C4 counterexample: on the per-entry path list `["a", ""]`
(an entry with empty joined path following a non-empty one) the
serialized form is also `["a", ""]`, and carrying forward the last
non-blank path reconstructs `["a", "a"]`, not the original list: the
round trip of the claim fails. -/
theorem c4_counterexample :
    decompressPaths (compressPaths ["a", ""]) = ["a", "a"] ∧
    (["a", "a"] : List String) ≠ ["a", ""] := by
  exact ⟨rfl, by decide⟩

/-- Claim C4 (amended): provided no entry's original path is the empty
string (true of paths produced from a crate-rooted name stack), the
compacted list has the same length, an entry is blanked exactly when
its original path equals the immediately preceding entry's original
path (the first entry is never blanked), and replaying the compacted
list carrying forward the last non-blank path reconstructs every
original path exactly. -/
theorem c4_compression_round_trip (ps : List String) (h : "" ∉ ps) :
    (compressPaths ps).length = ps.length ∧
    decompressPaths (compressPaths ps) = ps ∧
    (∀ i, (compressPaths ps)[i + 1]? = some "" ↔
      ((ps[i + 1]?).isSome = true ∧ ps[i + 1]? = ps[i]?)) ∧
    (∀ q, (compressPaths ps)[0]? = some q → q ≠ "") := by
  refine ⟨compressFrom_length ps "", decompress_compress_from ps "" h, ?_, ?_⟩
  · intro i
    show (compressFrom "" ps)[i + 1]? = some "" ↔ _
    rw [compressFrom_succ ps "" i]
    cases hprev : ps[i]? with
    | none =>
      constructor
      · intro hsome
        exact absurd hsome (by simp)
      · rintro ⟨hs, heq⟩
        rw [heq] at hs
        exact absurd hs (by simp)
    | some prev =>
      cases hcur : ps[i + 1]? with
      | none =>
        constructor
        · intro hsome
          exact absurd hsome (by simp)
        · rintro ⟨hs, _⟩
          exact absurd hs (by simp)
      | some cur =>
        have hcurne : cur ≠ "" := fun hc => by
          apply h
          rw [← hc]
          exact List.getElem?_mem hcur
        constructor
        · intro hsome
          simp only [Option.some_bind, Option.map_some'] at hsome
          by_cases hpc : prev = cur
          · exact ⟨by simp, by rw [hpc]⟩
          · rw [if_neg hpc] at hsome
            exact absurd (Option.some.inj hsome) hcurne
        · rintro ⟨_, heq⟩
          have hce : cur = prev := Option.some.inj heq
          simp [hce]
  · intro q hq
    have hq1 : (ps[0]?).map (fun cur => if "" = cur then "" else cur) = some q := by
      rw [← compressFrom_head ps ""]
      exact hq
    cases hcur : ps[0]? with
    | none => rw [hcur] at hq1; exact absurd hq1 (by simp)
    | some cur =>
      rw [hcur] at hq1
      simp only [Option.map_some'] at hq1
      have hcurne : cur ≠ "" := fun hc => by
        apply h
        rw [← hc]
        exact List.getElem?_mem hcur
      intro hq0
      rw [hq0] at hq1
      by_cases hc : ("" : String) = cur
      · exact hcurne hc.symm
      · rw [if_neg hc] at hq1
        exact hcurne (Option.some.inj hq1)

/-- Claim C4 witness: the amended round-trip theorem applied at the
concrete path list `["a", "a", "b"]`. -/
theorem c4_compression_round_trip_witness :
    ("" ∉ (["a", "a", "b"] : List String)) ∧
    decompressPaths (compressPaths ["a", "a", "b"]) = ["a", "a", "b"] := by
  have h : "" ∉ (["a", "a", "b"] : List String) := by decide
  exact ⟨h, (c4_compression_round_trip ["a", "a", "b"] h).2.1⟩

/-! ## Claim C1: declaration-table insertion policy -/

/-- A struct item used to exercise the paths-insertion policy. -/
def c1Item : ItemData :=
  { name := some "S", defId := ⟨0, 9⟩, stripped := false, kind := .Struct }

/-- A crawl state in which every identifier is publicly reachable and
the path stack reads `["a"]`. -/
def c1CacheA : Cache :=
  { initCache [] (fun _ => true) (fun _ => none) with stack := ["a"] }

/-- Claim C1 counterexample: an identifier that is publicly reachable
is sighted twice (two equally-public sightings), first with path
`["a"]` and then with path `["b"]`; the table ends holding `["b"]`,
the second write, refuting first-write-wins among equally-public
sightings. -/
theorem c1_counterexample :
    (c1CacheA.accessLevels ⟨0, 9⟩ = true ∧
      (recordPaths c1CacheA c1Item).accessLevels ⟨0, 9⟩ = true) ∧
    (recordPaths { recordPaths c1CacheA c1Item with stack := ["b"] } c1Item).paths
        ⟨0, 9⟩ = some (["b"], ItemType.Struct) ∧
    some ((["b"] : List String), ItemType.Struct) ≠ some (["a"], ItemType.Struct) := by
  refine ⟨⟨rfl, rfl⟩, rfl, by decide⟩

/-- Claim C1 (amended): for an identifier in one of the
path-recorded kinds, a first sighting inserts unconditionally; a later
sighting replaces the stored (path, kind) exactly when the identifier
is publicly reachable (`access_levels.is_public`, a property of the
identifier, not of the individual sighting); thus among sightings of a
non-public identifier the first write wins, while for a public
identifier each later sighting overwrites, so the private-re-export
first, public-re-export second scenario ends with the later (public)
path recorded. -/
theorem c1_paths_policy (c : Cache) (item : ItemData)
    (h1 : item.stripped = false) (h2 : pathsRecordedKind item.kind = true)
    (h3 : c.strippedMod = false) :
    (c.paths item.defId = none →
      (recordPaths c item).paths item.defId = some (c.stack, item.kind)) ∧
    (∀ old, c.paths item.defId = some old →
      (recordPaths c item).paths item.defId =
        some (if c.accessLevels item.defId = true then (c.stack, item.kind)
              else old)) := by
  unfold recordPaths
  rw [if_pos ⟨h1, h2, h3⟩]
  constructor
  · intro habs
    rw [if_pos (Or.inl (by rw [habs]; rfl))]
    simp
  · intro old hold
    by_cases hpub : c.accessLevels item.defId = true
    · rw [if_pos (Or.inr hpub), if_pos hpub]
      simp
    · rw [if_neg (by rw [hold]; simp [hpub]), if_neg hpub]
      exact hold

/-- Claim C1 witness: the amended policy applied to a concrete state:
an absent identifier is inserted, and a present non-public identifier
keeps its first-recorded path. -/
theorem c1_paths_policy_witness :
    (c1Item.stripped = false ∧ pathsRecordedKind c1Item.kind = true ∧
      c1CacheA.strippedMod = false) ∧
    (recordPaths c1CacheA c1Item).paths ⟨0, 9⟩ = some (["a"], ItemType.Struct) := by
  have h := (c1_paths_policy c1CacheA c1Item rfl rfl rfl).1 rfl
  exact ⟨⟨rfl, rfl, rfl⟩, h⟩

/-! ## Claim C6: the implementor registry and masked units -/

/-- A trait impl item whose own compilation unit is 5, implementing
trait `⟨0,7⟩` for target `⟨0,8⟩` (both in unit 0). -/
def c6Impl : ItemData :=
  { name := none, defId := ⟨5, 1⟩, stripped := false, kind := .Impl,
    implTrait := some ⟨0, 7⟩, implFor := .resolvedPath ⟨0, 8⟩ }

/-- A crawl state masking compilation unit 5 only. -/
def c6Cache : Cache := initCache [5] (fun _ => true) (fun _ => none)

/-- Claim C6 counterexample: an impl defined in a masked unit,
implementing a trait of an unmasked unit for a target of an unmasked
unit, is NOT appended to the registry, though the claim's condition
("neither the implementation's trait nor its target type belongs to a
masked unit") holds for it: the code keys the exclusion on the impl's
own unit, not the trait's. -/
theorem c6_counterexample :
    c6Cache.maskedCrates.contains (DefId.krate ⟨0, 7⟩) = false ∧
    c6Cache.maskedCrates.contains (DefId.krate ⟨0, 8⟩) = false ∧
    c6Impl.implTrait = some ⟨0, 7⟩ ∧
    (collectImplementors c6Cache c6Impl).implementors ⟨0, 7⟩ = [] := by
  exact ⟨rfl, rfl, rfl, rfl⟩

/-- Claim C6 (amended): a trait-for-type implementation appends an
Implementor record keyed by the trait identifier exactly when the impl
item's own compilation unit is not masked and the target type's unit
(when the target resolves to an identifier) is not masked; the trait's
own unit is never consulted. Inherent (trait-less) implementation
blocks never touch the registry, and no other key is ever touched. -/
theorem c6_implementors_registry (c : Cache) (item : ItemData)
    (h1 : item.stripped = false) (h2 : item.kind = .Impl) :
    (item.implTrait = none →
      ∀ k, (collectImplementors c item).implementors k = c.implementors k) ∧
    (∀ t, item.implTrait = some t →
      (∀ k, k ≠ t → (collectImplementors c item).implementors k = c.implementors k) ∧
      (collectImplementors c item).implementors t =
        (if (!(c.maskedCrates.contains item.defId.krate) &&
             (match item.implFor.defId with
              | some d => !(c.maskedCrates.contains d.krate)
              | none => true)) = true
         then c.implementors t ++ [⟨item.defId, item.implTrait, item.implFor⟩]
         else c.implementors t)) := by
  constructor
  · intro hnone k
    simp [collectImplementors, h1, h2, hnone]
  · intro t ht
    constructor
    · intro k hk
      by_cases hm : item.defId.krate ∈ c.maskedCrates
      · simp [collectImplementors, h1, h2, ht, hm]
      · cases hfor : item.implFor.defId with
        | none => simp [collectImplementors, h1, h2, ht, hfor, hm, hk]
        | some d =>
          by_cases hdm : d.krate ∈ c.maskedCrates <;>
            simp [collectImplementors, h1, h2, ht, hfor, hm, hdm, hk]
    · by_cases hm : item.defId.krate ∈ c.maskedCrates
      · simp [collectImplementors, h1, h2, ht, hm]
      · cases hfor : item.implFor.defId with
        | none => simp [collectImplementors, h1, h2, ht, hfor, hm]
        | some d =>
          by_cases hdm : d.krate ∈ c.maskedCrates <;>
            simp [collectImplementors, h1, h2, ht, hfor, hm, hdm]

/-- Claim C6 witness: the amended registry theorem applied to a
concrete local (unmasked) trait impl, which is appended, keyed by its
trait. -/
theorem c6_implementors_registry_witness :
    ((c1CacheA.maskedCrates.contains (DefId.krate ⟨0, 3⟩) = false) ∧
      ({ name := none, defId := ⟨0, 3⟩, stripped := false, kind := .Impl,
         implTrait := some ⟨0, 7⟩,
         implFor := ImplTarget.resolvedPath ⟨0, 8⟩ } : ItemData).stripped = false) ∧
    (collectImplementors c1CacheA
        { name := none, defId := ⟨0, 3⟩, stripped := false, kind := .Impl,
          implTrait := some ⟨0, 7⟩,
          implFor := ImplTarget.resolvedPath ⟨0, 8⟩ }).implementors ⟨0, 7⟩ =
      [⟨⟨0, 3⟩, some ⟨0, 7⟩, ImplTarget.resolvedPath ⟨0, 8⟩⟩] := by
  have h := ((c6_implementors_registry c1CacheA
      { name := none, defId := ⟨0, 3⟩, stripped := false, kind := .Impl,
        implTrait := some ⟨0, 7⟩,
        implFor := ImplTarget.resolvedPath ⟨0, 8⟩ } rfl rfl).2 ⟨0, 7⟩ rfl).2
  exact ⟨⟨rfl, rfl⟩, by rw [h]; rfl⟩

/-! ## Claim C3: orphan resolution -/

theorem resolveOrphans_append (paths : DefId → Option (List String × ItemType))
    (os1 os2 : List (DefId × ItemData)) :
    resolveOrphans paths (os1 ++ os2) =
      resolveOrphans paths os1 ++ resolveOrphans paths os2 := by
  induction os1 with
  | nil => rfl
  | cons o os ih =>
    obtain ⟨did, item⟩ := o
    cases h : paths did with
    | none => simp [resolveOrphans, h, ih]
    | some v =>
      obtain ⟨fqp, k⟩ := v
      simp [resolveOrphans, h, ih]

/-- Claim C3: for an orphan whose owning-type identifier is present in
the finished declaration table, the resolver pass emits exactly one
additional index entry, placed in orphan order, whose path is the
owner's recorded fully-qualified path minus its trailing component;
an orphan whose owner is absent contributes nothing and signals no
error. -/
theorem c3_orphan_resolution (paths : DefId → Option (List String × ItemType))
    (did : DefId) (item : ItemData) (os1 os2 : List (DefId × ItemData)) :
    (∀ fqp k, paths did = some (fqp, k) →
      resolveOrphans paths (os1 ++ (did, item) :: os2) =
        resolveOrphans paths os1 ++
        ({ ty := item.kind
           name := item.name.getD ""
           path := joinPath fqp.dropLast
           desc := plainSummaryLine item.doc
           parent := some did
           parentIdx := none
           searchType := getIndexSearchType item } : IndexItem) ::
        resolveOrphans paths os2) ∧
    (paths did = none →
      resolveOrphans paths (os1 ++ (did, item) :: os2) =
        resolveOrphans paths os1 ++ resolveOrphans paths os2) := by
  constructor
  · intro fqp k hsome
    rw [resolveOrphans_append]
    simp [resolveOrphans, hsome]
  · intro hnone
    rw [resolveOrphans_append]
    simp [resolveOrphans, hnone]

/-- Claim C3 witness: the resolution theorem applied at a present
owner (emitting one entry with the owner's path minus its last
component) and at an absent owner (emitting nothing). -/
theorem c3_orphan_resolution_witness :
    ((fun d => if d = (⟨0, 2⟩ : DefId) then
        some ((["m", "S"] : List String), ItemType.Struct) else none) ⟨0, 2⟩ =
      some (["m", "S"], ItemType.Struct) ∧
     resolveOrphans
        (fun d => if d = (⟨0, 2⟩ : DefId) then
          some (["m", "S"], ItemType.Struct) else none)
        [(⟨0, 2⟩, c1Item)] =
      [{ ty := c1Item.kind, name := c1Item.name.getD "",
         path := joinPath (["m", "S"] : List String).dropLast,
         desc := plainSummaryLine c1Item.doc, parent := some ⟨0, 2⟩,
         parentIdx := none, searchType := getIndexSearchType c1Item }]) ∧
    ((fun _ : DefId => (none : Option (List String × ItemType))) ⟨0, 2⟩ = none ∧
     resolveOrphans (fun _ => none) [(⟨0, 2⟩, c1Item)] = []) := by
  constructor
  · refine ⟨rfl, ?_⟩
    have h := (c3_orphan_resolution
        (fun d => if d = (⟨0, 2⟩ : DefId) then
          some (["m", "S"], ItemType.Struct) else none)
        ⟨0, 2⟩ c1Item [] []).1 ["m", "S"] ItemType.Struct rfl
    simpa using h
  · refine ⟨rfl, ?_⟩
    have h := (c3_orphan_resolution (fun _ => none) ⟨0, 2⟩ c1Item [] []).2 rfl
    simpa using h

/-! ## Claim C2: impl members take the recorded (not lexical) path -/

/-- The method / associated-const arm of `indexItemStep` in full: with
a recorded type-like path the entry takes that path minus its last
component; with a recorded path of another kind it takes the lexical
stack; with no recorded path an orphan is emitted. Shared spine of the
C2 and C8 theorems. -/
theorem indexItemStep_method_arm (c : Cache) (item : ItemData) (s : String)
    (hname : item.name = some s) (hstripped : item.stripped = false)
    (hkind : item.kind = .Method ∨
      (item.kind = .AssociatedConst ∧ c.parentIsTraitImpl = false))
    (top : DefId) (rest : List DefId) (hps : c.parentStack = top :: rest)
    (hidx : item.defId.index ≠ crateDefIndex) :
    (∀ fqp k, c.paths top = some (fqp, k) →
      (k = .Trait ∨ k = .Struct ∨ k = .Union ∨ k = .Enum) →
      indexItemStep c item =
        ⟨some { ty := item.kind
                name := s
                path := joinPath fqp.dropLast
                desc := plainSummaryLine item.doc
                parent := some top
                parentIdx := none
                searchType := getIndexSearchType item }, none⟩) ∧
    (∀ fqp k, c.paths top = some (fqp, k) →
      ¬ (k = .Trait ∨ k = .Struct ∨ k = .Union ∨ k = .Enum) →
      indexItemStep c item =
        ⟨some { ty := item.kind
                name := s
                path := joinPath c.stack
                desc := plainSummaryLine item.doc
                parent := some top
                parentIdx := none
                searchType := getIndexSearchType item }, none⟩) ∧
    (c.paths top = none → indexItemStep c item = ⟨none, some (top, item)⟩) := by
  have harm2 : ¬ ((item.kind = .AssociatedConst ∨
      (item.kind = .Typedef ∧ item.typedefIsAssoc = true)) ∧
      c.parentIsTraitImpl = true) := by
    rcases hkind with hk | ⟨hk, hpti⟩
    · rintro ⟨hor, -⟩
      rcases hor with h | ⟨h, -⟩ <;> rw [hk] at h <;> exact ItemType.noConfusion h
    · rintro ⟨-, hpti2⟩
      rw [hpti] at hpti2
      exact Bool.noConfusion hpti2
  have harm3 : ¬ (item.kind = .AssociatedType ∨ item.kind = .TyMethod ∨
      item.kind = .StructField ∨ item.kind = .Variant) := by
    have hk : item.kind = .Method ∨ item.kind = .AssociatedConst := by
      rcases hkind with hk | ⟨hk, -⟩
      · exact Or.inl hk
      · exact Or.inr hk
    rcases hk with hk | hk <;>
      · rw [hk]
        rintro (h | h | h | h) <;> exact ItemType.noConfusion h
  have harm4 : item.kind = .Method ∨ item.kind = .AssociatedConst := by
    rcases hkind with hk | ⟨hk, -⟩
    · exact Or.inl hk
    · exact Or.inr hk
  have hs1 : ¬ (item.stripped = true) := by rw [hstripped]; decide
  refine ⟨?_, ?_, ?_⟩
  · intro fqp k hsome hk4
    unfold indexItemStep
    rw [hname]
    simp only [if_neg hs1, if_neg harm2, if_neg harm3, if_pos harm4, hps, hsome]
    rw [if_pos hk4]
    simp [hidx]
  · intro fqp k hsome hk4
    unfold indexItemStep
    rw [hname]
    simp only [if_neg hs1, if_neg harm2, if_neg harm3, if_pos harm4, hps, hsome]
    rw [if_neg hk4]
    simp [hidx]
  · intro hnone
    unfold indexItemStep
    rw [hname]
    simp only [if_neg hs1, if_neg harm2, if_neg harm3, if_pos harm4, hps, hnone]

/-- The skip arm of the indexing match (the source's "skip associated
items in trait impls"): inside a trait impl, an associated const or an
associated typedef produces neither an index entry nor an orphan,
whatever the paths table holds. Shared spine of the C2 and C8
theorems. -/
theorem indexItemStep_trait_impl_skip (c : Cache) (item : ItemData)
    (hkind : item.kind = .AssociatedConst ∨
      (item.kind = .Typedef ∧ item.typedefIsAssoc = true))
    (hpti : c.parentIsTraitImpl = true) :
    indexItemStep c item = ⟨none, none⟩ := by
  unfold indexItemStep
  cases hname : item.name with
  | none => rfl
  | some s =>
    by_cases hs : item.stripped = true
    · rw [if_pos hs]
    · rw [if_neg hs, if_pos (⟨hkind, hpti⟩ :
        (item.kind = .AssociatedConst ∨
          (item.kind = .Typedef ∧ item.typedefIsAssoc = true)) ∧
        c.parentIsTraitImpl = true)]

/-- Claim C2 (amended): for a method or associated const in an impl
with a non-empty type-context stack: outside a trait impl (always, for
a method), when the subject identifier already has a recorded path of
kind trait, struct, union or enum, the visit emits exactly one index
entry whose path is that recorded path minus its trailing component
(the owning type's module path; the trailing component itself is
carried by the parent slot), not the lexical module stack, and when
the subject identifier has no recorded path yet, an orphan entry
(subject identifier, item) is emitted instead; but an associated const
inside a trait impl is skipped outright — neither an index entry nor
an orphan — even when the subject's type-like path is recorded. -/
theorem c2_impl_member_paths (c : Cache) (item : ItemData) (s : String)
    (hname : item.name = some s) (hstripped : item.stripped = false)
    (hkind : item.kind = .Method ∨ item.kind = .AssociatedConst)
    (top : DefId) (rest : List DefId) (hps : c.parentStack = top :: rest)
    (hidx : item.defId.index ≠ crateDefIndex) :
    (c.parentIsTraitImpl = false ∨ item.kind = .Method →
      (∀ fqp k, c.paths top = some (fqp, k) →
        (k = .Trait ∨ k = .Struct ∨ k = .Union ∨ k = .Enum) →
        indexItemStep c item =
          ⟨some { ty := item.kind
                  name := s
                  path := joinPath fqp.dropLast
                  desc := plainSummaryLine item.doc
                  parent := some top
                  parentIdx := none
                  searchType := getIndexSearchType item }, none⟩) ∧
      (c.paths top = none → indexItemStep c item = ⟨none, some (top, item)⟩)) ∧
    (item.kind = .AssociatedConst → c.parentIsTraitImpl = true →
      indexItemStep c item = ⟨none, none⟩) := by
  constructor
  · intro hcase
    have hkind2 : item.kind = .Method ∨
        (item.kind = .AssociatedConst ∧ c.parentIsTraitImpl = false) := by
      rcases hkind with hk | hk
      · exact Or.inl hk
      · rcases hcase with hpti | hm
        · exact Or.inr ⟨hk, hpti⟩
        · rw [hk] at hm
          exact absurd hm (by decide)
    have h := indexItemStep_method_arm c item s hname hstripped hkind2 top rest
      hps hidx
    exact ⟨h.1, h.2.2⟩
  · intro hk hpti
    exact indexItemStep_trait_impl_skip c item (Or.inl hk) hpti

/-- The scenario tree of the claim: a crate root containing module `m`
with struct `S`, then module `n` with `impl S { fn f() }`. The root
module's name is empty so that recorded paths read exactly as in the
claim's scenario. -/
def fMeth : Item :=
  .node { name := some "f", defId := ⟨0, 5⟩, stripped := false,
          kind := .Method } .nil

/-- `impl S { fn f() }`, lexically inside module `n`. -/
def implNode : Item :=
  .node { name := none, defId := ⟨0, 4⟩, stripped := false, kind := .Impl,
          implTrait := none, implFor := .resolvedPath ⟨0, 2⟩ }
    (.cons fMeth .nil)

/-- `struct S` inside module `m`. -/
def sStruct : Item :=
  .node { name := some "S", defId := ⟨0, 2⟩, stripped := false,
          kind := .Struct } .nil

/-- Module `m`, defining `S`. -/
def mMod : Item :=
  .node { name := some "m", defId := ⟨0, 1⟩, stripped := false,
          kind := .Module } (.cons sStruct .nil)

/-- Module `n`, containing the impl. -/
def nMod : Item :=
  .node { name := some "n", defId := ⟨0, 3⟩, stripped := false,
          kind := .Module } (.cons implNode .nil)

/-- The crate root for the scenario. -/
def demoRoot : Item :=
  .node { name := some "", defId := ⟨0, 0⟩, stripped := false,
          kind := .Module } (.cons mMod (.cons nMod .nil))

/-- The crawl of the scenario from an all-public, nothing-masked
starting state. -/
def demoFinal : Cache :=
  crawlItem (initCache [] (fun _ => true) (fun _ => none)) demoRoot

/-- Claim C2 counterexample: in the claim's own scenario (struct
`m::S`, later `impl S { fn f() }` inside module `n`) the crawl indexes
`f` with parent `S` and path `"m"` — the recorded path of `S` minus
its trailing component — not with path `"m::S"` as the claim's
conclusion states (and not with the lexical `"n"` either). -/
theorem c2_counterexample :
    (demoFinal.searchIndex.filter (fun e => e.name = "f")).map
        (fun e => (e.path, e.parent)) = [("m", some ⟨0, 2⟩)] ∧
    ("m" : String) ≠ "m::S" ∧ ("m" : String) ≠ "n" := by
  refine ⟨rfl, by decide, by decide⟩

/-- An associated const, as visited inside `impl Trait for S { const C }`. -/
def cAssoc : ItemData :=
  { name := some "C", defId := ⟨0, 6⟩, stripped := false,
    kind := .AssociatedConst }

/-- Claim C2 witness: the amended per-visit theorem applied at a
concrete state: with `S`'s recorded path `["m", "S"]` of kind struct
on file, a method visit emits the entry with path `"m"`; with no
recorded path, the same visit emits an orphan instead; and an
associated const visited inside a trait impl emits neither, even with
the same recorded subject path. -/
theorem c2_impl_member_paths_witness :
    (indexItemStep
        { initCache [] (fun _ => true) (fun _ => none) with
            stack := ["n"]
            parentStack := [⟨0, 2⟩]
            paths := fun d => if d = (⟨0, 2⟩ : DefId) then
              some (["m", "S"], ItemType.Struct) else none }
        (dataOf fMeth) =
      ⟨some { ty := ItemType.Method, name := "f", path := "m", desc := "",
              parent := some ⟨0, 2⟩, parentIdx := none,
              searchType := some ⟨[], none⟩ }, none⟩) ∧
    (indexItemStep
        { initCache [] (fun _ => true) (fun _ => none) with
            stack := ["n"]
            parentStack := [⟨0, 2⟩] }
        (dataOf fMeth) =
      ⟨none, some (⟨0, 2⟩, dataOf fMeth)⟩) ∧
    (indexItemStep
        { initCache [] (fun _ => true) (fun _ => none) with
            stack := ["n"]
            parentStack := [⟨0, 2⟩]
            parentIsTraitImpl := true
            paths := fun d => if d = (⟨0, 2⟩ : DefId) then
              some (["m", "S"], ItemType.Struct) else none }
        cAssoc = ⟨none, none⟩) := by
  refine ⟨?_, ?_, ?_⟩
  · have h := ((c2_impl_member_paths
        { initCache [] (fun _ => true) (fun _ => none) with
            stack := ["n"]
            parentStack := [⟨0, 2⟩]
            paths := fun d => if d = (⟨0, 2⟩ : DefId) then
              some (["m", "S"], ItemType.Struct) else none }
        (dataOf fMeth) "f" rfl rfl (Or.inl rfl) ⟨0, 2⟩ [] rfl
        (by decide)).1 (Or.inl rfl)).1 ["m", "S"] ItemType.Struct rfl
        (Or.inr (Or.inl rfl))
    exact h
  · have h := ((c2_impl_member_paths
        { initCache [] (fun _ => true) (fun _ => none) with
            stack := ["n"]
            parentStack := [⟨0, 2⟩] }
        (dataOf fMeth) "f" rfl rfl (Or.inl rfl) ⟨0, 2⟩ [] rfl
        (by decide)).1 (Or.inl rfl)).2 rfl
    exact h
  · have h := (c2_impl_member_paths
        { initCache [] (fun _ => true) (fun _ => none) with
            stack := ["n"]
            parentStack := [⟨0, 2⟩]
            parentIsTraitImpl := true
            paths := fun d => if d = (⟨0, 2⟩ : DefId) then
              some (["m", "S"], ItemType.Struct) else none }
        cAssoc "C" rfl rfl (Or.inr rfl) ⟨0, 2⟩ [] rfl
        (by decide)).2 rfl rfl
    exact h

/-! ## Claim C8: each impl member yields exactly one outcome -/

/-- Claim C8 counterexample: an associated const visited inside a
trait impl whose subject is resolvable — on the type-context stack,
with a recorded struct-kind path — emits neither an index entry nor an
orphan: zero outcomes, not exactly one. -/
theorem c8_counterexample :
    indexItemStep
        { initCache [] (fun _ => true) (fun _ => none) with
            stack := ["n"]
            parentStack := [⟨0, 2⟩]
            parentIsTraitImpl := true
            paths := fun d => if d = (⟨0, 2⟩ : DefId) then
              some (["m", "S"], ItemType.Struct) else none }
        { name := some "C", defId := ⟨0, 7⟩, stripped := false,
          kind := .AssociatedConst } = ⟨none, none⟩ ∧
    (({ initCache [] (fun _ => true) (fun _ => none) with
            stack := ["n"]
            parentStack := [⟨0, 2⟩]
            parentIsTraitImpl := true
            paths := fun d => if d = (⟨0, 2⟩ : DefId) then
              some (["m", "S"], ItemType.Struct) else none } : Cache).paths
      ⟨0, 2⟩).isSome = true := by
  exact ⟨rfl, rfl⟩

/-- Claim C8 (amended): a single visit of an impl member never emits
both an index entry and an orphan entry; for a method, or an
associated const outside a trait impl, with a resolvable target on the
type-context stack, the visit emits exactly one of the two — the entry
exactly when the subject's path is already recorded, the orphan
exactly when it is not — while an associated const inside a trait impl
emits neither; and a recorded orphan is later turned by the resolver
into exactly one final index entry when its owner is in the finished
table and into none (dropped) when it is not. -/
theorem c8_member_exactly_one (c : Cache) (item : ItemData) (s : String)
    (hname : item.name = some s) (hstripped : item.stripped = false)
    (hkind : item.kind = .Method ∨ item.kind = .AssociatedConst)
    (top : DefId) (rest : List DefId) (hps : c.parentStack = top :: rest)
    (hidx : item.defId.index ≠ crateDefIndex)
    (finalPaths : DefId → Option (List String × ItemType)) :
    (¬ ((indexItemStep c item).entry.isSome = true ∧
        (indexItemStep c item).orphan.isSome = true)) ∧
    (c.parentIsTraitImpl = false ∨ item.kind = .Method →
      ((indexItemStep c item).entry.isSome = true ↔
        (c.paths top).isSome = true) ∧
      ((indexItemStep c item).orphan.isSome = true ↔ c.paths top = none)) ∧
    (item.kind = .AssociatedConst → c.parentIsTraitImpl = true →
      (indexItemStep c item).entry = none ∧
      (indexItemStep c item).orphan = none) ∧
    (∀ o, (indexItemStep c item).orphan = some o →
      (resolveOrphans finalPaths [o]).length =
        (if (finalPaths o.1).isSome = true then 1 else 0)) := by
  by_cases hskip : item.kind = .AssociatedConst ∧ c.parentIsTraitImpl = true
  · have hz := indexItemStep_trait_impl_skip c item (Or.inl hskip.1) hskip.2
    refine ⟨?_, ?_, ?_, ?_⟩
    · rintro ⟨hent, -⟩
      rw [hz] at hent
      exact Bool.noConfusion hent
    · intro hcase
      rcases hcase with hpti | hm
      · rw [hskip.2] at hpti
        exact Bool.noConfusion hpti
      · rw [hskip.1] at hm
        exact absurd hm (by decide)
    · intro _ _
      rw [hz]
      exact ⟨rfl, rfl⟩
    · intro o ho
      rw [hz] at ho
      exact Option.noConfusion ho
  · have hkind2 : item.kind = .Method ∨
        (item.kind = .AssociatedConst ∧ c.parentIsTraitImpl = false) := by
      rcases hkind with hk | hk
      · exact Or.inl hk
      · cases hpti : c.parentIsTraitImpl with
        | false => exact Or.inr ⟨hk, rfl⟩
        | true => exact absurd ⟨hk, hpti⟩ hskip
    have harm := indexItemStep_method_arm c item s hname hstripped hkind2 top
      rest hps hidx
    have hstep : ∀ fqp k, c.paths top = some (fqp, k) →
        (indexItemStep c item).orphan = none ∧
        (indexItemStep c item).entry.isSome = true := by
      intro fqp k hsome
      by_cases hk4 : k = .Trait ∨ k = .Struct ∨ k = .Union ∨ k = .Enum
      · rw [harm.1 fqp k hsome hk4]
        exact ⟨rfl, rfl⟩
      · rw [harm.2.1 fqp k hsome hk4]
        exact ⟨rfl, rfl⟩
    have horph : c.paths top = none →
        (indexItemStep c item).orphan = some (top, item) ∧
        (indexItemStep c item).entry = none := by
      intro hnone
      rw [harm.2.2 hnone]
      exact ⟨rfl, rfl⟩
    refine ⟨?_, ?_, ?_, ?_⟩
    · rintro ⟨hent, horp⟩
      cases hsome : c.paths top with
      | none =>
        rw [(horph hsome).2] at hent
        exact Bool.noConfusion hent
      | some v =>
        obtain ⟨fqp, k⟩ := v
        rw [(hstep fqp k hsome).1] at horp
        exact Bool.noConfusion horp
    · intro hcase
      constructor
      · constructor
        · intro hent
          cases hsome : c.paths top with
          | none =>
            rw [(horph hsome).2] at hent
            exact Bool.noConfusion hent
          | some v => rfl
        · intro hps2
          cases hsome : c.paths top with
          | none => rw [hsome] at hps2; exact Bool.noConfusion hps2
          | some v =>
            obtain ⟨fqp, k⟩ := v
            exact (hstep fqp k hsome).2
      · constructor
        · intro horp
          cases hsome : c.paths top with
          | none => rfl
          | some v =>
            obtain ⟨fqp, k⟩ := v
            rw [(hstep fqp k hsome).1] at horp
            exact Bool.noConfusion horp
        · intro hnone
          rw [(horph hnone).1]
          rfl
    · intro hk hpti
      exact absurd ⟨hk, hpti⟩ hskip
    · intro o ho
      obtain ⟨odid, oitem⟩ := o
      cases hf : finalPaths odid with
      | none => simp [resolveOrphans, hf]
      | some v =>
        obtain ⟨fqp, k⟩ := v
        simp [resolveOrphans, hf]

/-- Claim C8 witness: the exactly-one theorem applied at two concrete
states: with the subject's path recorded and no trait impl in scope, a
method visit never emits both outcomes; inside a trait impl, an
associated-const visit emits neither. -/
theorem c8_member_exactly_one_witness :
    (¬ (((indexItemStep
          { initCache [] (fun _ => true) (fun _ => none) with
              stack := ["n"]
              parentStack := [⟨0, 2⟩]
              paths := fun d => if d = (⟨0, 2⟩ : DefId) then
                some (["m", "S"], ItemType.Struct) else none }
          (dataOf fMeth)).entry.isSome = true) ∧
       ((indexItemStep
          { initCache [] (fun _ => true) (fun _ => none) with
              stack := ["n"]
              parentStack := [⟨0, 2⟩]
              paths := fun d => if d = (⟨0, 2⟩ : DefId) then
                some (["m", "S"], ItemType.Struct) else none }
          (dataOf fMeth)).orphan.isSome = true))) ∧
    ((indexItemStep
        { initCache [] (fun _ => true) (fun _ => none) with
            stack := ["n"]
            parentStack := [⟨0, 2⟩]
            parentIsTraitImpl := true
            paths := fun d => if d = (⟨0, 2⟩ : DefId) then
              some (["m", "S"], ItemType.Struct) else none }
        cAssoc).entry = none ∧
     (indexItemStep
        { initCache [] (fun _ => true) (fun _ => none) with
            stack := ["n"]
            parentStack := [⟨0, 2⟩]
            parentIsTraitImpl := true
            paths := fun d => if d = (⟨0, 2⟩ : DefId) then
              some (["m", "S"], ItemType.Struct) else none }
        cAssoc).orphan = none) :=
  ⟨(c8_member_exactly_one
      { initCache [] (fun _ => true) (fun _ => none) with
          stack := ["n"]
          parentStack := [⟨0, 2⟩]
          paths := fun d => if d = (⟨0, 2⟩ : DefId) then
            some (["m", "S"], ItemType.Struct) else none }
      (dataOf fMeth) "f" rfl rfl (Or.inl rfl) ⟨0, 2⟩ [] rfl (by decide)
      (fun _ => none)).1,
   (c8_member_exactly_one
      { initCache [] (fun _ => true) (fun _ => none) with
          stack := ["n"]
          parentStack := [⟨0, 2⟩]
          parentIsTraitImpl := true
          paths := fun d => if d = (⟨0, 2⟩ : DefId) then
            some (["m", "S"], ItemType.Struct) else none }
      cAssoc "C" rfl rfl (Or.inr rfl) ⟨0, 2⟩ [] rfl (by decide)
      (fun _ => none)).2.2.1 rfl rfl⟩

/-! ## The compaction loop invariant (shared by the C5 and C10
theorems) -/

theorem lookupId_none_iff (l : List (DefId × Nat)) (d : DefId) :
    lookupId l d = none ↔ d ∉ l.map Prod.fst := by
  induction l with
  | nil => simp [lookupId]
  | cons p rest ih =>
    obtain ⟨k, v⟩ := p
    by_cases h : d = k
    · subst h
      simp [lookupId]
    · simp [lookupId, h, ih, Ne.symm h]

theorem lookupId_mem (l : List (DefId × Nat)) (d : DefId) (i : Nat)
    (h : lookupId l d = some i) : (d, i) ∈ l := by
  induction l with
  | nil => exact absurd h (by simp [lookupId])
  | cons p rest ih =>
    obtain ⟨k, v⟩ := p
    by_cases hd : d = k
    · subst hd
      rw [lookupId, if_pos rfl] at h
      cases h
      exact List.mem_cons_self _ _
    · rw [lookupId, if_neg hd] at h
      exact List.mem_cons_of_mem _ (ih h)

/-- The keys of the `nodeid_to_pathid` memo. -/
def slotKeys (st : SlotState) : List DefId := st.nodeidToPathid.map Prod.fst

/-- The running invariant of the slot-assignment state: distinct keys,
slot values below `lastpathid` and pairwise distinct, and one
`crate_paths` record (and one memo pair) per assigned slot. -/
def slotsInv (st : SlotState) : Prop :=
  (slotKeys st).Nodup ∧
  (∀ p ∈ st.nodeidToPathid, p.2 < st.lastpathid) ∧
  (∀ p ∈ st.nodeidToPathid, ∀ q ∈ st.nodeidToPathid, p.2 = q.2 → p.1 = q.1) ∧
  st.cratePaths.length = st.lastpathid ∧
  st.nodeidToPathid.length = st.lastpathid

/-- The running invariant of the emitted items: a parentless entry has
no slot, and an entry with a parent carries exactly the memoized slot
of that parent. -/
def itemsInv (st : BuildState) : Prop :=
  ∀ it ∈ st.crateItems,
    (it.parent = none → it.parentIdx = none) ∧
    (∀ d, it.parent = some d →
      lookupId st.slots.nodeidToPathid d = it.parentIdx ∧
      it.parentIdx.isSome = true)

theorem buildLoop_master (paths : DefId → Option (List String × ItemType))
    (items : List IndexItem) : ∀ st : BuildState,
    (∀ it ∈ items, ∀ d, it.parent = some d →
      ∃ fqp k, paths d = some (fqp, k) ∧ fqp ≠ []) →
    slotsInv st.slots → itemsInv st →
    ∃ st1, buildLoop paths st items = some st1 ∧
      slotsInv st1.slots ∧ itemsInv st1 ∧
      (∀ d i, lookupId st.slots.nodeidToPathid d = some i →
        lookupId st1.slots.nodeidToPathid d = some i) ∧
      (∀ d, d ∈ slotKeys st1.slots ↔
        d ∈ slotKeys st.slots ∨ d ∈ items.filterMap (fun it => it.parent)) ∧
      (st1.crateItems.map fun it => it.parent) =
        (st.crateItems.map fun it => it.parent) ++
        (items.map fun it => it.parent) := by
  induction items with
  | nil =>
    intro st _ hslots hitems
    exact ⟨st, rfl, hslots, hitems, fun d i h => h,
      fun d => by simp, by simp⟩
  | cons it rest ih =>
    intro st hpres hslots hitems
    -- one buildStep, by cases on the entry's parent
    obtain ⟨st2, hstep, hslots2, hitems2, hmono2, hkeys2, hpar2⟩ :
        ∃ st2, buildStep paths st it = some st2 ∧
          slotsInv st2.slots ∧ itemsInv st2 ∧
          (∀ d i, lookupId st.slots.nodeidToPathid d = some i →
            lookupId st2.slots.nodeidToPathid d = some i) ∧
          (∀ d, d ∈ slotKeys st2.slots ↔
            d ∈ slotKeys st.slots ∨ it.parent = some d) ∧
          (st2.crateItems.map fun x => x.parent) =
            (st.crateItems.map fun x => x.parent) ++ [it.parent] := by
      cases hpar : it.parent with
      | none =>
        refine ⟨⟨st.slots,
          if st.lastpath = it.path then st.lastpath else it.path,
          st.crateItems ++ [blankPath st.lastpath { it with parentIdx := none }]⟩,
          ?_, hslots, ?_, fun d i h => h, ?_, ?_⟩
        · unfold buildStep
          rw [hpar]
          rfl
        · intro x hx
          simp only [List.mem_append, List.mem_singleton] at hx
          rcases hx with hx | hx
          · exact hitems x hx
          · subst hx
            rw [blankPath_parent, blankPath_parentIdx]
            refine ⟨fun _ => rfl, fun d hd => ?_⟩
            have hd1 : it.parent = some d := hd
            rw [hpar] at hd1
            exact absurd hd1 (by simp)
        · intro d
          simp [hpar]
        · simp [hpar, blankPath_parent]
      | some d =>
        obtain ⟨fqp, k, hp, hne⟩ := hpres it (by simp) d hpar
        cases hlk : lookupId st.slots.nodeidToPathid d with
        | some pid =>
          refine ⟨⟨st.slots,
            if st.lastpath = it.path then st.lastpath else it.path,
            st.crateItems ++
              [blankPath st.lastpath { it with parentIdx := some pid }]⟩,
            ?_, hslots, ?_, fun d1 i h => h, ?_, ?_⟩
          · unfold buildStep
            rw [hpar]
            simp only [assignParentIdx, hlk]
            rfl
          · intro x hx
            simp only [List.mem_append, List.mem_singleton] at hx
            rcases hx with hx | hx
            · exact hitems x hx
            · subst hx
              rw [blankPath_parent, blankPath_parentIdx]
              refine ⟨fun hno => ?_, ?_⟩
              · have hno1 : it.parent = none := hno
                rw [hpar] at hno1
                exact absurd hno1 (by simp)
              · intro d1 hd1
                have hd11 : it.parent = some d1 := hd1
                rw [hpar] at hd11
                have hdd : d1 = d := (Option.some.inj hd11).symm
                rw [hdd]
                exact ⟨hlk, rfl⟩
          · intro d1
            constructor
            · intro h
              exact Or.inl h
            · rintro (h | h)
              · exact h
              · have hdd : d1 = d := (Option.some.inj h).symm
                rw [hdd]
                exact List.mem_map_of_mem Prod.fst (lookupId_mem _ _ _ hlk)
          · simp [hpar, blankPath_parent]
        | none =>
          obtain ⟨lastc, hlast⟩ := Option.isSome_iff_exists.mp
            (List.getLast?_isSome.mpr hne)
          refine ⟨⟨⟨(d, st.slots.lastpathid) :: st.slots.nodeidToPathid,
              st.slots.lastpathid + 1,
              st.slots.cratePaths ++ [(k.toNat, lastc)]⟩,
            if st.lastpath = it.path then st.lastpath else it.path,
            st.crateItems ++ [blankPath st.lastpath
              { it with parentIdx := some st.slots.lastpathid }]⟩,
            ?_, ?_, ?_, ?_, ?_, ?_⟩
          · unfold buildStep
            rw [hpar]
            simp only [assignParentIdx, hlk, hp, hlast]
            rfl
          · -- the slots invariant after a fresh assignment
            obtain ⟨hnd, hbnd, hinj, hcl, hml⟩ := hslots
            refine ⟨?_, ?_, ?_, ?_, ?_⟩
            · refine List.Nodup.cons ?_ hnd
              exact (lookupId_none_iff _ _).mp hlk
            · rintro p hp1
              rcases List.mem_cons.mp hp1 with hp1 | hp1
              · subst hp1
                exact Nat.lt_succ_self _
              · exact Nat.lt_succ_of_lt (hbnd p hp1)
            · rintro p hp1 q hq1 hpq
              rcases List.mem_cons.mp hp1 with hp1 | hp1 <;>
                rcases List.mem_cons.mp hq1 with hq1 | hq1
              · rw [hp1, hq1]
              · subst hp1
                have := hbnd q hq1
                rw [← hpq] at this
                exact absurd this (by simp)
              · subst hq1
                have := hbnd p hp1
                rw [hpq] at this
                exact absurd this (by simp)
              · exact hinj p hp1 q hq1 hpq
            · simp [hcl]
            · simp [hml]
          · intro x hx
            simp only [List.mem_append, List.mem_singleton] at hx
            rcases hx with hx | hx
            · obtain ⟨hxn, hxs⟩ := hitems x hx
              refine ⟨hxn, ?_⟩
              intro d1 hd1
              obtain ⟨hl1, hs1⟩ := hxs d1 hd1
              refine ⟨?_, hs1⟩
              obtain ⟨i1, hi1⟩ := Option.isSome_iff_exists.mp hs1
              rw [hi1] at hl1
              have hne1 : d1 ≠ d := by
                intro hdd
                rw [hdd, hlk] at hl1
                exact Option.noConfusion hl1
              show lookupId ((d, st.slots.lastpathid) :: _) d1 = _
              rw [lookupId, if_neg hne1, hl1, hi1]
            · subst hx
              rw [blankPath_parent, blankPath_parentIdx]
              refine ⟨fun hno => ?_, ?_⟩
              · have hno1 : it.parent = none := hno
                rw [hpar] at hno1
                exact absurd hno1 (by simp)
              · intro d1 hd1
                have hd11 : it.parent = some d1 := hd1
                rw [hpar] at hd11
                have hdd : d1 = d := (Option.some.inj hd11).symm
                rw [hdd]
                refine ⟨?_, rfl⟩
                show lookupId ((d, st.slots.lastpathid) :: _) d = _
                rw [lookupId, if_pos rfl]
          · intro d1 i h
            have hne1 : d1 ≠ d := by
              intro hdd
              rw [hdd, hlk] at h
              exact Option.noConfusion h
            show lookupId ((d, st.slots.lastpathid) :: _) d1 = _
            rw [lookupId, if_neg hne1]
            exact h
          · intro d1
            show d1 ∈ d :: slotKeys st.slots ↔ _
            constructor
            · intro h
              rcases List.mem_cons.mp h with h | h
              · refine Or.inr ?_
                rw [h]
              · exact Or.inl h
            · rintro (h | h)
              · exact List.mem_cons_of_mem _ h
              · exact List.mem_cons.mpr (Or.inl (Option.some.inj h).symm)
          · simp [hpar, blankPath_parent]
    -- then the tail, by the induction hypothesis
    obtain ⟨st1, hloop, hslots1, hitems1, hmono1, hkeys1, hpar1⟩ :=
      ih st2 (fun x hx => hpres x (by simp [hx])) hslots2 hitems2
    refine ⟨st1, ?_, hslots1, hitems1, ?_, ?_, ?_⟩
    · show buildLoop paths st (it :: rest) = some st1
      unfold buildLoop
      rw [hstep]
      exact hloop
    · intro d i h
      exact hmono1 d i (hmono2 d i h)
    · intro d
      rw [hkeys1 d, hkeys2 d]
      constructor
      · rintro ((h | h) | h)
        · exact Or.inl h
        · exact Or.inr (List.mem_filterMap.mpr ⟨it, List.mem_cons_self _ _, h⟩)
        · rcases List.mem_filterMap.mp h with ⟨x, hx, hxd⟩
          exact Or.inr (List.mem_filterMap.mpr ⟨x, by simp [hx], hxd⟩)
      · rintro (h | h)
        · exact Or.inl (Or.inl h)
        · rcases List.mem_filterMap.mp h with ⟨x, hx, hxd⟩
          rcases List.mem_cons.mp hx with hx | hx
          · exact Or.inl (Or.inr (hx ▸ hxd))
          · exact Or.inr (List.mem_filterMap.mpr ⟨x, hx, hxd⟩)
    · rw [hpar1, hpar2]
      simp

/-! ## Claim C5: parent-slot assignment -/

/-- Claim C5: walking the draft index in order with every parent
present in the declaration table, the compaction loop succeeds, the
emitted paths side table holds exactly one record per distinct parent
identifier occurring in the index (its length is the number of
distinct parents), two serialized entries carry the same parent slot
exactly when they carry the same parent identifier, and the entries
come out one per draft entry with parents preserved. -/
theorem c5_parent_slots (paths : DefId → Option (List String × ItemType))
    (items : List IndexItem)
    (hpres : ∀ it ∈ items, ∀ d, it.parent = some d →
      ∃ fqp k, paths d = some (fqp, k) ∧ fqp ≠ []) :
    ∃ st1, buildLoop paths initBuildState items = some st1 ∧
      st1.slots.cratePaths.length =
        ((items.filterMap fun it => it.parent).dedup).length ∧
      (∀ x ∈ st1.crateItems, ∀ y ∈ st1.crateItems,
        (x.parentIdx = y.parentIdx ↔ x.parent = y.parent)) ∧
      (st1.crateItems.map fun x => x.parent) =
        (items.map fun x => x.parent) := by
  obtain ⟨st1, hloop, hslots1, hitems1, -, hkeys1, hpar1⟩ :=
    buildLoop_master paths items initBuildState hpres
      ⟨by simp [slotKeys, initBuildState], by simp [initBuildState],
       by simp [initBuildState], rfl, rfl⟩
      (by intro x hx; simp [initBuildState] at hx)
  refine ⟨st1, hloop, ?_, ?_, by simpa [initBuildState] using hpar1⟩
  · -- one paths record per distinct parent
    obtain ⟨hnd, -, -, hcl, hml⟩ := hslots1
    have hkeysp : ∀ d, d ∈ slotKeys st1.slots ↔
        d ∈ items.filterMap fun it => it.parent := by
      intro d
      rw [hkeys1 d]
      simp [slotKeys, initBuildState]
    have hfin : (slotKeys st1.slots).toFinset =
        ((items.filterMap fun it => it.parent).dedup).toFinset := by
      ext a
      simp only [List.mem_toFinset, List.mem_dedup]
      exact hkeysp a
    have hlen : (slotKeys st1.slots).length =
        ((items.filterMap fun it => it.parent).dedup).length := by
      rw [← List.toFinset_card_of_nodup hnd,
        ← List.toFinset_card_of_nodup (List.nodup_dedup _), hfin]
    have hmlen : (slotKeys st1.slots).length =
        st1.slots.nodeidToPathid.length := List.length_map _ _
    rw [hcl, ← hml, ← hmlen, hlen]
  · -- slot sharing iff parent sharing
    intro x hx y hy
    obtain ⟨hxn, hxs⟩ := hitems1 x hx
    obtain ⟨hyn, hys⟩ := hitems1 y hy
    cases hxp : x.parent with
    | none =>
      cases hyp : y.parent with
      | none =>
        rw [hxn hxp, hyn hyp]
        simp
      | some d2 =>
        obtain ⟨hl2, hs2⟩ := hys d2 hyp
        obtain ⟨i2, hi2⟩ := Option.isSome_iff_exists.mp hs2
        rw [hxn hxp, hi2]
        simp
    | some d1 =>
      obtain ⟨hl1, hs1⟩ := hxs d1 hxp
      obtain ⟨i1, hi1⟩ := Option.isSome_iff_exists.mp hs1
      cases hyp : y.parent with
      | none =>
        rw [hyn hyp, hi1]
        simp
      | some d2 =>
        obtain ⟨hl2, hs2⟩ := hys d2 hyp
        obtain ⟨i2, hi2⟩ := Option.isSome_iff_exists.mp hs2
        rw [hi1, hi2]
        rw [hi1] at hl1
        rw [hi2] at hl2
        constructor
        · intro hii
          have hii1 : i1 = i2 := Option.some.inj hii
          have hm1 := lookupId_mem _ _ _ hl1
          have hm2 := lookupId_mem _ _ _ hl2
          have hdd := hslots1.2.2.1 _ hm1 _ hm2 (by simp [hii1])
          have hdd1 : d1 = d2 := hdd
          rw [hdd1]
        · intro hdd
          have hdd1 : d1 = d2 := Option.some.inj hdd
          have : some i1 = some i2 := by
            rw [← hl1, ← hl2, hdd1]
          rw [Option.some.inj this]

/-- A small declaration table for the C5 witness: one struct at
`["m", "S"]`. -/
def c5Paths : DefId → Option (List String × ItemType) :=
  fun d => if d = ⟨0, 1⟩ then some (["m", "S"], ItemType.Struct) else none

/-- A small draft index for the C5 witness: two methods sharing
parent `⟨0,1⟩` and one parentless module entry. -/
def c5Items : List IndexItem :=
  [{ ty := .Method, name := "f", path := "m", desc := "",
     parent := some ⟨0, 1⟩, parentIdx := none, searchType := none },
   { ty := .Module, name := "m", path := "", desc := "",
     parent := none, parentIdx := none, searchType := none },
   { ty := .Method, name := "g", path := "m", desc := "",
     parent := some ⟨0, 1⟩, parentIdx := none, searchType := none }]

/-- Claim C5 witness: the slot-assignment theorem applied to the
concrete draft index above. -/
theorem c5_parent_slots_witness :
    ∃ st1, buildLoop c5Paths initBuildState c5Items = some st1 ∧
      st1.slots.cratePaths.length =
        ((c5Items.filterMap fun it => it.parent).dedup).length ∧
      (∀ x ∈ st1.crateItems, ∀ y ∈ st1.crateItems,
        (x.parentIdx = y.parentIdx ↔ x.parent = y.parent)) ∧
      (st1.crateItems.map fun x => x.parent) =
        (c5Items.map fun x => x.parent) := by
  refine c5_parent_slots c5Paths c5Items ?_
  intro it hit d hd
  have hdid : d = ⟨0, 1⟩ := by
    simp only [c5Items, List.mem_cons, List.not_mem_nil, or_false] at hit
    rcases hit with h | h | h <;> subst h <;>
      first
        | exact (Option.some.inj hd).symm
        | exact absurd hd (by simp)
  subst hdid
  exact ⟨["m", "S"], ItemType.Struct, rfl, by decide⟩

/-! ## Claim C10: the crawl keeps its entry parents in the paths
table, so serialization never fails

Well-formedness of the upstream declaration tree (the producer
contract of the spec): member-like items (associated types, required
methods, fields, variants) appear only inside nominal types or
variants, variants are named, and the root is a named module. -/

/-- Kinds indexed through the enclosing type context (the third arm of
the indexing match). -/
def memberKindB : ItemType → Bool
  | .AssociatedType | .TyMethod | .StructField | .Variant => true
  | _ => false

/-- Kinds that push themselves onto the type-context stack. -/
def nominalParentKindB : ItemType → Bool
  | .Trait | .Enum | .ForeignType | .Struct | .Union => true
  | _ => false

/-- Variant kind test. -/
def isVariantB : ItemType → Bool
  | .Variant => true
  | _ => false

/-- The item has a non-empty name. -/
def nameNonemptyB (d : ItemData) : Bool :=
  match d.name with
  | some n => decide (n ≠ "")
  | none => false

/-- The item can host member-kind children: an unstripped nominal
type, or an unstripped variant (struct-variant fields). -/
def hostFor (d : ItemData) : Bool :=
  (nominalParentKindB d.kind || isVariantB d.kind) && !d.stripped

/-- An unstripped member-kind child may appear only under a host. -/
def okChild (parent child : ItemData) : Bool :=
  !(memberKindB child.kind && !child.stripped) || hostFor parent

/-- Unstripped variants carry a non-empty name. -/
def wfData (d : ItemData) : Bool :=
  !(isVariantB d.kind && !d.stripped) || nameNonemptyB d

mutual
/-- Well-formed declaration tree (producer contract). -/
def wfItem : Item → Bool
  | .node d cs => wfData d && wfKids d cs
/-- Well-formed children of an item with data `pd`. -/
def wfKids (pd : ItemData) : ItemList → Bool
  | .nil => true
  | .cons i rest => okChild pd (dataOf i) && wfItem i && wfKids pd rest
end

/-- The crawl invariant: every indexed entry's parent is already in
the paths table, and every recorded path is non-empty. -/
def cacheInv (c : Cache) : Prop :=
  (∀ e ∈ c.searchIndex, ∀ d, e.parent = some d →
    (c.paths d).isSome = true) ∧
  (∀ d fqp k, c.paths d = some (fqp, k) → fqp ≠ [])

/-- The type-context stack exposes a host whose path is recorded. -/
def memberHostOk (c : Cache) : Prop :=
  ∃ top rest, c.parentStack = top :: rest ∧ (c.paths top).isSome = true

/-- State precondition for visiting one item: if it is an unstripped
member-kind item outside stripped modules, a recorded host is on the
type-context stack. -/
def okUnder (c : Cache) (d : ItemData) : Prop :=
  memberKindB d.kind = true → d.stripped = false → c.strippedMod = false →
    memberHostOk c

/-- State precondition tying the stack to the root: only a named root
module is visited with an empty name stack. -/
def stackOk (c : Cache) (d : ItemData) : Prop :=
  c.stack = [] → d.kind = .Module ∧ nameNonemptyB d = true

theorem stripStep_proj (c : Cache) (item : ItemData) :
    (stripStep c item).paths = c.paths ∧
    (stripStep c item).searchIndex = c.searchIndex ∧
    (stripStep c item).stack = c.stack ∧
    (stripStep c item).parentStack = c.parentStack ∧
    (stripStep c item).orphanImplItems = c.orphanImplItems := by
  unfold stripStep
  split <;> exact ⟨rfl, rfl, rfl, rfl, rfl⟩

theorem stripStep_strippedMod (c : Cache) (item : ItemData)
    (h : item.stripped = false) : (stripStep c item).strippedMod = c.strippedMod := by
  unfold stripStep
  rw [if_neg (by rw [h]; rintro ⟨h1, -⟩; exact Bool.noConfusion h1)]

theorem collectImplementors_proj (c : Cache) (item : ItemData) :
    (collectImplementors c item).paths = c.paths ∧
    (collectImplementors c item).searchIndex = c.searchIndex ∧
    (collectImplementors c item).stack = c.stack ∧
    (collectImplementors c item).parentStack = c.parentStack ∧
    (collectImplementors c item).strippedMod = c.strippedMod ∧
    (collectImplementors c item).orphanImplItems = c.orphanImplItems := by
  unfold collectImplementors
  repeat' split
  all_goals exact ⟨rfl, rfl, rfl, rfl, rfl, rfl⟩

theorem pushIndexOut_proj (c : Cache) (out : IndexOut) :
    (pushIndexOut c out).paths = c.paths ∧
    (pushIndexOut c out).searchIndex = c.searchIndex ++ out.entry.toList ∧
    (pushIndexOut c out).stack = c.stack ∧
    (pushIndexOut c out).parentStack = c.parentStack ∧
    (pushIndexOut c out).strippedMod = c.strippedMod := by
  exact ⟨rfl, rfl, rfl, rfl, rfl⟩

theorem pushName_proj (c : Cache) (item : ItemData) :
    ((pushName c item).1.paths = c.paths ∧
     (pushName c item).1.searchIndex = c.searchIndex ∧
     (pushName c item).1.parentStack = c.parentStack ∧
     (pushName c item).1.strippedMod = c.strippedMod ∧
     (pushName c item).1.orphanImplItems = c.orphanImplItems) ∧
    ((pushName c item).2 = true →
      ∃ n, item.name = some n ∧ n ≠ "" ∧
        (pushName c item).1.stack = c.stack ++ [n]) ∧
    ((pushName c item).2 = false → (pushName c item).1.stack = c.stack) ∧
    (∀ n, item.name = some n → n ≠ "" → (pushName c item).2 = true) := by
  unfold pushName
  cases hn : item.name with
  | none => exact ⟨⟨rfl, rfl, rfl, rfl, rfl⟩, by simp, fun _ => rfl,
      fun n h => absurd h (by simp)⟩
  | some n =>
    dsimp only
    by_cases he : n = ""
    · rw [if_pos he]
      exact ⟨⟨rfl, rfl, rfl, rfl, rfl⟩, by simp, fun _ => rfl,
        fun m hm hme => absurd (Option.some.inj hm ▸ he) (Ne.symm hme ∘ Eq.symm)⟩
    · rw [if_neg he]
      refine ⟨⟨rfl, rfl, rfl, rfl, rfl⟩, fun _ => ⟨n, rfl, he, rfl⟩,
        fun h => Bool.noConfusion h, fun _ _ _ => rfl⟩

theorem recordPaths_proj (c : Cache) (item : ItemData) :
    (recordPaths c item).searchIndex = c.searchIndex ∧
    (recordPaths c item).stack = c.stack ∧
    (recordPaths c item).parentStack = c.parentStack ∧
    (recordPaths c item).strippedMod = c.strippedMod ∧
    (recordPaths c item).parentIsTraitImpl = c.parentIsTraitImpl ∧
    (recordPaths c item).orphanImplItems = c.orphanImplItems := by
  unfold recordPaths
  repeat' split
  all_goals exact ⟨rfl, rfl, rfl, rfl, rfl, rfl⟩

theorem recordPaths_mono (c : Cache) (item : ItemData) (d0 : DefId)
    (h : (c.paths d0).isSome = true) :
    ((recordPaths c item).paths d0).isSome = true := by
  unfold recordPaths
  repeat' split
  all_goals
    first
      | exact h
      | · show (if d0 = item.defId then some _ else c.paths d0).isSome = true
          split
          · rfl
          · exact h

theorem recordPaths_cases (c : Cache) (item : ItemData) (d0 : DefId)
    (fqp : List String) (k : ItemType)
    (h : (recordPaths c item).paths d0 = some (fqp, k)) :
    c.paths d0 = some (fqp, k) ∨ fqp = c.stack ∨
    (fqp = c.stack.dropLast ∧ item.kind = .Variant ∧ item.stripped = false) := by
  unfold recordPaths at h
  split at h
  · split at h
    · revert h
      show (if d0 = item.defId then some (c.stack, item.kind) else c.paths d0) =
          some (fqp, k) → _
      split
      · intro h
        exact Or.inr (Or.inl (congrArg Prod.fst (Option.some.inj h)).symm)
      · exact fun h => Or.inl h
    · exact Or.inl h
  · split at h
    · rename_i hv
      revert h
      show (if d0 = item.defId then some (c.stack.dropLast, ItemType.Enum)
          else c.paths d0) = some (fqp, k) → _
      split
      · intro h
        exact Or.inr (Or.inr
          ⟨(congrArg Prod.fst (Option.some.inj h)).symm, hv.2.1, hv.1⟩)
      · exact fun h => Or.inl h
    · split at h
      · revert h
        show (if d0 = item.defId then some (c.stack, item.kind) else c.paths d0) =
            some (fqp, k) → _
        split
        · intro h
          exact Or.inr (Or.inl (congrArg Prod.fst (Option.some.inj h)).symm)
        · exact fun h => Or.inl h
      · exact Or.inl h

theorem recordPaths_self (c : Cache) (item : ItemData)
    (h1 : item.stripped = false) (h2 : pathsRecordedKind item.kind = true)
    (h3 : c.strippedMod = false) :
    ((recordPaths c item).paths item.defId).isSome = true := by
  unfold recordPaths
  rw [if_pos ⟨h1, h2, h3⟩]
  split
  · show (if item.defId = item.defId then some _ else _).isSome = true
    rw [if_pos rfl]
    rfl
  · rename_i hcond
    rcases not_or.mp hcond with ⟨hcontains, -⟩
    simp only [Bool.not_eq_false] at hcontains
    exact hcontains

theorem pushParent_proj (c : Cache) (item : ItemData) :
    ((pushParent c item).1.paths = c.paths ∧
     (pushParent c item).1.searchIndex = c.searchIndex ∧
     (pushParent c item).1.stack = c.stack ∧
     (pushParent c item).1.strippedMod = c.strippedMod ∧
     (pushParent c item).1.orphanImplItems = c.orphanImplItems) ∧
    ((pushParent c item).2 = true →
      ∃ dd, (pushParent c item).1.parentStack = dd :: c.parentStack) ∧
    ((pushParent c item).2 = false →
      (pushParent c item).1.parentStack = c.parentStack) := by
  unfold pushParent
  dsimp only
  repeat' split
  all_goals
    exact ⟨⟨rfl, rfl, rfl, rfl, rfl⟩,
      by first | exact fun _ => ⟨_, rfl⟩ | exact fun h => Bool.noConfusion h,
      by first | exact fun _ => rfl | exact fun h => Bool.noConfusion h⟩

theorem pushParent_nominal (c : Cache) (item : ItemData)
    (h1 : item.stripped = false) (h2 : nominalParentKindB item.kind = true) :
    (pushParent c item).1.parentStack = item.defId :: c.parentStack := by
  have hk : item.kind = .Trait ∨ item.kind = .Enum ∨ item.kind = .ForeignType ∨
      item.kind = .Struct ∨ item.kind = .Union := by
    cases hkk : item.kind <;> rw [hkk] at h2 <;>
      first
        | exact Bool.noConfusion h2
        | simp [hkk]
  unfold pushParent
  rw [if_pos ⟨h1, by tauto⟩]

theorem pushParent_variant (c : Cache) (item : ItemData)
    (h2 : isVariantB item.kind = true) :
    (pushParent c item).1 = c ∧ (pushParent c item).2 = false := by
  have hk : item.kind = .Variant := by
    cases hkk : item.kind <;> rw [hkk] at h2 <;>
      first
        | exact Bool.noConfusion h2
        | rfl
  unfold pushParent
  rw [if_neg (by rw [hk]; rintro ⟨-, h | h | h | h | h⟩ <;> exact ItemType.noConfusion h),
    if_neg (by rw [hk]; rintro ⟨-, h⟩; exact ItemType.noConfusion h)]
  exact ⟨rfl, rfl⟩

mutual
/-- One visit restores the name stack, the type-context stack and the
stripped flag (every exit path pops what it pushed). -/
theorem crawlItem_frame (i : Item) : ∀ c : Cache,
    (crawlItem c i).stack = c.stack ∧
    (crawlItem c i).parentStack = c.parentStack ∧
    (crawlItem c i).strippedMod = c.strippedMod := by
  cases i with
  | node d cs =>
    intro c
    simp only [crawlItem]
    set c1 := stripStep c d with hc1
    set c2 := collectImplementors c1 d with hc2
    set out := indexItemStep c2 d with hout
    set c3 := pushIndexOut c2 out with hc3
    set pn := pushName c3 d with hpn
    set c5 := recordPaths pn.1 d with hc5
    set pr := pushParent c5 d with hpr
    set c7 := crawlList pr.1 cs with hc7
    obtain ⟨hf1, hf2, hf3⟩ := crawlList_frame cs pr.1
    rw [← hc7] at hf1 hf2 hf3
    obtain ⟨-, -, hst1, hps1, -⟩ := stripStep_proj c d
    rw [← hc1] at hst1 hps1
    obtain ⟨-, -, hst2, hps2, -, -⟩ := collectImplementors_proj c1 d
    rw [← hc2] at hst2 hps2
    obtain ⟨-, -, hst3, hps3, -⟩ := pushIndexOut_proj c2 out
    rw [← hc3] at hst3 hps3
    obtain ⟨⟨-, -, hps4, -, -⟩, hpn2, hpn3, -⟩ := pushName_proj c3 d
    rw [← hpn] at hps4 hpn2 hpn3
    obtain ⟨-, hst5, hps5, -, -, -⟩ := recordPaths_proj pn.1 d
    rw [← hc5] at hst5 hps5
    obtain ⟨⟨-, -, hst6, -, -⟩, hpp2, hpp3⟩ := pushParent_proj c5 d
    rw [← hpr] at hst6 hpp2 hpp3
    have hstack6 : pr.1.stack = pn.1.stack := by rw [hst6, hst5]
    have hps6base : c5.parentStack = c.parentStack := by
      rw [hps5, hps4, hps3, hps2, hps1]
    have hstack_all : c7.stack = pn.1.stack := by rw [hf1, hstack6]
    refine ⟨?_, ?_, ?_⟩
    · split <;> rename_i h2
      all_goals split <;> rename_i h1
      all_goals
        first
          | · obtain ⟨n, -, -, hstk⟩ := hpn2 h1
              show c7.stack.dropLast = c.stack
              rw [hstack_all, hstk, List.dropLast_concat, hst3, hst2, hst1]
          | · show c7.stack = c.stack
              rw [hstack_all, hpn3 (by simpa using h1), hst3, hst2, hst1]
    · split <;> rename_i h2
      all_goals split <;> rename_i h1
      all_goals
        first
          | · obtain ⟨dd, hdd⟩ := hpp2 h2
              show c7.parentStack.tail = c.parentStack
              rw [hf2, hdd, List.tail_cons, hps6base]
          | · show c7.parentStack = c.parentStack
              rw [hf2, hpp3 (by simpa using h2), hps6base]
    · trivial

/-- Folding a child list restores the per-visit state fields. -/
theorem crawlList_frame (l : ItemList) : ∀ c : Cache,
    (crawlList c l).stack = c.stack ∧
    (crawlList c l).parentStack = c.parentStack ∧
    (crawlList c l).strippedMod = c.strippedMod := by
  cases l with
  | nil => intro c; exact ⟨rfl, rfl, rfl⟩
  | cons i rest =>
    intro c
    obtain ⟨h1, h2, h3⟩ := crawlItem_frame i c
    obtain ⟨g1, g2, g3⟩ := crawlList_frame rest (crawlItem c i)
    exact ⟨g1.trans h1, g2.trans h2, g3.trans h3⟩
end

mutual
/-- The crawl only ever inserts into the paths table: a recorded
identifier stays recorded. -/
theorem crawlItem_mono (i : Item) : ∀ (c : Cache) (d0 : DefId),
    (c.paths d0).isSome = true → ((crawlItem c i).paths d0).isSome = true := by
  cases i with
  | node d cs =>
    intro c d0 h
    simp only [crawlItem]
    set c1 := stripStep c d with hc1
    set c2 := collectImplementors c1 d with hc2
    set out := indexItemStep c2 d with hout
    set c3 := pushIndexOut c2 out with hc3
    set pn := pushName c3 d with hpn
    set c5 := recordPaths pn.1 d with hc5
    set pr := pushParent c5 d with hpr
    set c7 := crawlList pr.1 cs with hc7
    have hp1 : c1.paths = c.paths := by rw [hc1]; exact (stripStep_proj c d).1
    have hp2 : c2.paths = c1.paths := by
      rw [hc2]; exact (collectImplementors_proj c1 d).1
    have hp3 : c3.paths = c2.paths := by rw [hc3]; exact (pushIndexOut_proj c2 out).1
    have hp4 : pn.1.paths = c3.paths := by rw [hpn]; exact (pushName_proj c3 d).1.1
    have hp6 : pr.1.paths = c5.paths := by rw [hpr]; exact (pushParent_proj c5 d).1.1
    have h5 : (c5.paths d0).isSome = true := by
      rw [hc5]
      exact recordPaths_mono pn.1 d d0 (by rw [hp4, hp3, hp2, hp1]; exact h)
    have h7 : (c7.paths d0).isSome = true := by
      rw [hc7]
      exact crawlList_mono cs pr.1 d0 (by rw [hp6]; exact h5)
    split <;> rename_i h2
    all_goals split <;> rename_i h1
    all_goals
      show (c7.paths d0).isSome = true
      exact h7

/-- The fold of a child list only extends the paths table. -/
theorem crawlList_mono (l : ItemList) : ∀ (c : Cache) (d0 : DefId),
    (c.paths d0).isSome = true → ((crawlList c l).paths d0).isSome = true := by
  cases l with
  | nil => intro c d0 h; exact h
  | cons i rest =>
    intro c d0 h
    exact crawlList_mono rest (crawlItem c i) d0 (crawlItem_mono i c d0 h)
end

theorem memberKindB_of_arm (item : ItemData)
    (h : item.kind = .AssociatedType ∨ item.kind = .TyMethod ∨
      item.kind = .StructField ∨ item.kind = .Variant) :
    memberKindB item.kind = true := by
  rcases h with h | h | h | h <;> rw [h] <;> rfl

/-- If the visit's state offers a recorded host for member-kind items,
then every search-index entry the visit emits has its parent already
in the paths table. -/
theorem indexItemStep_entry_parent (c : Cache) (item : ItemData)
    (hhost : memberKindB item.kind = true → item.stripped = false →
      c.strippedMod = false → memberHostOk c) :
    ∀ e, (indexItemStep c item).entry = some e → ∀ d0, e.parent = some d0 →
      (c.paths d0).isSome = true := by
  intro e he d0 hd0
  unfold indexItemStep at he
  cases hn : item.name with
  | none =>
    rw [hn] at he
    simp at he
  | some s =>
    rw [hn] at he
    dsimp only at he
    by_cases hstr : item.stripped = true
    · rw [if_pos hstr] at he
      simp at he
    · rw [if_neg hstr] at he
      have hstr' : item.stripped = false := by
        revert hstr; cases item.stripped <;> simp
      by_cases harm2 : (item.kind = .AssociatedConst ∨
          (item.kind = .Typedef ∧ item.typedefIsAssoc = true)) ∧
          c.parentIsTraitImpl = true
      · rw [if_pos harm2] at he
        simp at he
      · rw [if_neg harm2] at he
        by_cases harm3 : item.kind = .AssociatedType ∨ item.kind = .TyMethod ∨
            item.kind = .StructField ∨ item.kind = .Variant
        · rw [if_pos harm3] at he
          cases hps : c.parentStack with
          | nil =>
            rw [hps] at he
            simp at he
          | cons last tail =>
            rw [hps] at he
            dsimp only at he
            by_cases hsm : c.strippedMod = false
            · rw [if_pos (Or.inr hsm)] at he
              by_cases hidx : item.defId.index ≠ crateDefIndex
              · rw [if_pos hidx] at he
                dsimp only at he
                obtain rfl := (Option.some.inj he).symm
                have hd1 : some last = some d0 := hd0
                obtain rfl := (Option.some.inj hd1).symm
                obtain ⟨top, rest2, hpsc, hsome⟩ :=
                  hhost (memberKindB_of_arm item harm3) hstr' hsm
                rw [hps] at hpsc
                rw [(List.cons.inj hpsc).1]
                exact hsome
              · rw [if_neg hidx] at he
                simp at he
            · rw [if_neg (fun hor => hor.elim (fun h1 => Bool.noConfusion h1)
                (fun h1 => hsm h1))] at he
              simp at he
        · rw [if_neg harm3] at he
          by_cases harm4 : item.kind = .Method ∨ item.kind = .AssociatedConst
          · rw [if_pos harm4] at he
            cases hps : c.parentStack with
            | nil =>
              rw [hps] at he
              simp at he
            | cons last tail =>
              rw [hps] at he
              dsimp only at he
              cases hpl : c.paths last with
              | none =>
                rw [hpl] at he
                simp at he
              | some v =>
                obtain ⟨fqp, k⟩ := v
                rw [hpl] at he
                dsimp only at he
                by_cases hk4 : k = .Trait ∨ k = .Struct ∨ k = .Union ∨ k = .Enum
                · rw [if_pos hk4] at he
                  dsimp only at he
                  rw [if_pos (Or.inl rfl)] at he
                  by_cases hidx : item.defId.index ≠ crateDefIndex
                  · rw [if_pos hidx] at he
                    dsimp only at he
                    obtain rfl := (Option.some.inj he).symm
                    have hd1 : some last = some d0 := hd0
                    obtain rfl := (Option.some.inj hd1).symm
                    rw [hpl]
                    rfl
                  · rw [if_neg hidx] at he
                    simp at he
                · rw [if_neg hk4] at he
                  dsimp only at he
                  rw [if_pos (Or.inl rfl)] at he
                  by_cases hidx : item.defId.index ≠ crateDefIndex
                  · rw [if_pos hidx] at he
                    dsimp only at he
                    obtain rfl := (Option.some.inj he).symm
                    have hd1 : some last = some d0 := hd0
                    obtain rfl := (Option.some.inj hd1).symm
                    rw [hpl]
                    rfl
                  · rw [if_neg hidx] at he
                    simp at he
          · rw [if_neg harm4] at he
            dsimp only at he
            by_cases hsm : c.strippedMod = false
            · rw [if_pos (Or.inr hsm)] at he
              by_cases hidx : item.defId.index ≠ crateDefIndex
              · rw [if_pos hidx] at he
                dsimp only at he
                obtain rfl := (Option.some.inj he).symm
                exact absurd hd0 (by simp)
              · rw [if_neg hidx] at he
                simp at he
            · rw [if_neg (fun hor => hor.elim (fun h1 => Bool.noConfusion h1)
                (fun h1 => hsm h1))] at he
              simp at he

theorem bool_and_elim {a b : Bool} (h : (a && b) = true) : a = true ∧ b = true := by
  cases a <;> cases b <;> simp_all

theorem cacheInv_congr (c c' : Cache) (hp : c'.paths = c.paths)
    (hs : c'.searchIndex = c.searchIndex) (h : cacheInv c) : cacheInv c' := by
  constructor
  · intro e he d1 hd1
    rw [hp]
    exact h.1 e (by rw [← hs]; exact he) d1 hd1
  · intro d1 fqp k hh
    exact h.2 d1 fqp k (by rw [← hp]; exact hh)

mutual
/-- One visit preserves the crawl invariant, provided the tree is
well-formed, member-kind items see a recorded host, and only a named
root module is visited on an empty stack. -/
theorem crawlItem_inv (i : Item) : ∀ c : Cache, cacheInv c → wfItem i = true →
    okUnder c (dataOf i) → stackOk c (dataOf i) → cacheInv (crawlItem c i) := by
  cases i with
  | node d cs =>
    intro c hinv hwf hok0 hst0
    have hok : okUnder c d := hok0
    have hst : stackOk c d := hst0
    have hwfp : wfData d = true ∧ wfKids d cs = true := by
      have h1 : (wfData d && wfKids d cs) = true := hwf
      exact bool_and_elim h1
    simp only [crawlItem]
    set c1 := stripStep c d with hc1
    set c2 := collectImplementors c1 d with hc2
    set out := indexItemStep c2 d with hout
    set c3 := pushIndexOut c2 out with hc3
    set pn := pushName c3 d with hpn
    set c5 := recordPaths pn.1 d with hc5
    set pr := pushParent c5 d with hpr
    set c7 := crawlList pr.1 cs with hc7
    obtain ⟨hp1, hsi1, hstk1, hps1, -⟩ := stripStep_proj c d
    rw [← hc1] at hp1 hsi1 hstk1 hps1
    obtain ⟨hp2, hsi2, hstk2, hps2, hsm2, -⟩ := collectImplementors_proj c1 d
    rw [← hc2] at hp2 hsi2 hstk2 hps2 hsm2
    obtain ⟨hp3, hsi3, hstk3, hps3, hsm3⟩ := pushIndexOut_proj c2 out
    rw [← hc3] at hp3 hsi3 hstk3 hps3 hsm3
    obtain ⟨⟨hp4, hsi4, hps4, hsm4, -⟩, hpn2, hpn3, hpn4⟩ := pushName_proj c3 d
    rw [← hpn] at hp4 hsi4 hps4 hsm4 hpn2 hpn3 hpn4
    obtain ⟨hsi5, hstk5, hps5, hsm5, -, -⟩ := recordPaths_proj pn.1 d
    rw [← hc5] at hsi5 hstk5 hps5 hsm5
    obtain ⟨⟨hp6, hsi6, hstk6, hsm6, -⟩, hpp2, hpp3⟩ := pushParent_proj c5 d
    rw [← hpr] at hp6 hsi6 hstk6 hsm6 hpp2 hpp3
    have hinv1 : cacheInv c1 := cacheInv_congr c c1 hp1 hsi1 hinv
    have hinv2 : cacheInv c2 := cacheInv_congr c1 c2 hp2 hsi2 hinv1
    have hinv3 : cacheInv c3 := by
      constructor
      · intro e he d1 hd1
        have he2 : e ∈ c2.searchIndex ++ out.entry.toList := by
          rw [← hsi3]; exact he
        rw [hp3]
        rcases List.mem_append.mp he2 with he2 | he2
        · exact hinv2.1 e he2 d1 hd1
        · have heq : out.entry = some e := by
            cases ho : out.entry with
            | none => rw [ho] at he2; simp at he2
            | some a =>
              rw [ho] at he2
              simp at he2
              rw [he2]
          have hhost2 : memberKindB d.kind = true → d.stripped = false →
              c2.strippedMod = false → memberHostOk c2 := by
            intro hmk hstrip hsm
            have hsmc : c.strippedMod = false := by
              rw [hsm2] at hsm
              rw [hc1, stripStep_strippedMod c d hstrip] at hsm
              exact hsm
            obtain ⟨top, r2, hpsc, hsome⟩ := hok hmk hstrip hsmc
            exact ⟨top, r2, by rw [hps2, hps1]; exact hpsc,
              by rw [hp2, hp1]; exact hsome⟩
          exact indexItemStep_entry_parent c2 d hhost2 e
            (by rw [← hout]; exact heq) d1 hd1
      · intro d1 fqp k hh
        exact hinv2.2 d1 fqp k (by rw [← hp3]; exact hh)
    have hinv4 : cacheInv pn.1 := cacheInv_congr c3 pn.1 hp4 hsi4 hinv3
    have hstack4 : pn.1.stack ≠ [] := by
      cases hb : pn.2 with
      | true =>
        obtain ⟨n, -, -, hstk⟩ := hpn2 hb
        rw [hstk]
        simp
      | false =>
        rw [hpn3 hb, hstk3, hstk2, hstk1]
        intro hemp
        obtain ⟨hkind, hne⟩ := hst hemp
        unfold nameNonemptyB at hne
        cases hname : d.name with
        | none =>
          rw [hname] at hne
          exact Bool.noConfusion hne
        | some n =>
          rw [hname] at hne
          have hnn : n ≠ "" := of_decide_eq_true hne
          have hcontra := hpn4 n hname hnn
          rw [hb] at hcontra
          exact Bool.noConfusion hcontra
    have hinv5 : cacheInv c5 := by
      constructor
      · intro e he d1 hd1
        have he4 : e ∈ pn.1.searchIndex := by rw [← hsi5]; exact he
        have h4 := hinv4.1 e he4 d1 hd1
        rw [hc5]
        exact recordPaths_mono pn.1 d d1 h4
      · intro d1 fqp k hh
        have hh5 : (recordPaths pn.1 d).paths d1 = some (fqp, k) := by
          rw [← hc5]; exact hh
        rcases recordPaths_cases pn.1 d d1 fqp k hh5 with
          hcase | hcase | ⟨hcase, hkv, hksp⟩
        · exact hinv4.2 d1 fqp k hcase
        · rw [hcase]
          exact hstack4
        · have hvar : isVariantB d.kind = true := by rw [hkv]; rfl
          have hnn : nameNonemptyB d = true := by
            have hw := hwfp.1
            unfold wfData at hw
            rw [hvar, hksp] at hw
            simpa using hw
          cases hname : d.name with
          | none =>
            unfold nameNonemptyB at hnn
            rw [hname] at hnn
            exact absurd hnn (by simp)
          | some n =>
            have hne : n ≠ "" := by
              unfold nameNonemptyB at hnn
              rw [hname] at hnn
              exact of_decide_eq_true hnn
            obtain ⟨n2, -, -, hstk⟩ := hpn2 (hpn4 n hname hne)
            rw [hcase, hstk, List.dropLast_concat]
            rw [hstk3, hstk2, hstk1]
            intro hemp
            obtain ⟨hkind, -⟩ := hst hemp
            rw [hkv] at hkind
            exact ItemType.noConfusion hkind
    have hinv6 : cacheInv pr.1 := cacheInv_congr c5 pr.1 hp6 hsi6 hinv5
    have hinv7 : cacheInv c7 := by
      rw [hc7]
      refine crawlList_inv cs d pr.1 hinv6 hwfp.2 ?_ ?_
      · rw [hstk6, hstk5]
        exact hstack4
      · intro hhf hsm7
        have hstripd : d.stripped = false := by
          have h1 := (bool_and_elim hhf).2
          revert h1
          cases d.stripped <;> simp
        have hsmc : c.strippedMod = false := by
          rw [hsm6, hsm5, hsm4, hsm3, hsm2] at hsm7
          rw [hc1, stripStep_strippedMod c d hstripd] at hsm7
          exact hsm7
        have hor : nominalParentKindB d.kind = true ∨ isVariantB d.kind = true := by
          have h1 : (nominalParentKindB d.kind || isVariantB d.kind) = true :=
            (bool_and_elim hhf).1
          revert h1
          cases nominalParentKindB d.kind <;> cases isVariantB d.kind <;> simp
        rcases hor with hnom | hvar
        · have hpk : pathsRecordedKind d.kind = true := by
            cases hkk : d.kind <;> rw [hkk] at hnom <;>
              first
                | exact Bool.noConfusion hnom
                | rfl
          have hsm5a : pn.1.strippedMod = false := by
            rw [hsm4, hsm3, hsm2, hc1, stripStep_strippedMod c d hstripd]
            exact hsmc
          have hself : (c5.paths d.defId).isSome = true := by
            rw [hc5]
            exact recordPaths_self pn.1 d hstripd hpk hsm5a
          refine ⟨d.defId, c5.parentStack, ?_, ?_⟩
          · rw [hpr]
            exact pushParent_nominal c5 d hstripd hnom
          · rw [hp6]
            exact hself
        · have hmem : memberKindB d.kind = true := by
            cases hkk : d.kind <;> rw [hkk] at hvar <;>
              first
                | exact Bool.noConfusion hvar
                | rfl
          obtain ⟨top, r2, hpsc, hsome⟩ := hok hmem hstripd hsmc
          refine ⟨top, r2, ?_, ?_⟩
          · rw [hpr, (pushParent_variant c5 d hvar).1]
            rw [hps5, hps4, hps3, hps2, hps1]
            exact hpsc
          · rw [hp6, hc5]
            exact recordPaths_mono pn.1 d top
              (by rw [hp4, hp3, hp2, hp1]; exact hsome)
    split <;> rename_i hb2
    all_goals split <;> rename_i hb1
    all_goals exact cacheInv_congr c7 _ rfl rfl hinv7

/-- Folding a child list preserves the crawl invariant. -/
theorem crawlList_inv (l : ItemList) (pd : ItemData) : ∀ c : Cache, cacheInv c →
    wfKids pd l = true → c.stack ≠ [] →
    (hostFor pd = true → c.strippedMod = false → memberHostOk c) →
    cacheInv (crawlList c l) := by
  cases l with
  | nil =>
    intro c hinv _ _ _
    exact hinv
  | cons i rest =>
    intro c hinv hwfk hstk hhost
    have hwfk1 : okChild pd (dataOf i) = true ∧ wfItem i = true ∧
        wfKids pd rest = true := by
      have h1 : (okChild pd (dataOf i) && wfItem i && wfKids pd rest) = true := hwfk
      rcases bool_and_elim h1 with ⟨h2, h3⟩
      rcases bool_and_elim h2 with ⟨h4, h5⟩
      exact ⟨h4, h5, h3⟩
    have hok_i : okUnder c (dataOf i) := by
      intro hmk hstp hsm
      have hhf : hostFor pd = true := by
        have h1 := hwfk1.1
        unfold okChild at h1
        rw [hmk, hstp] at h1
        simpa using h1
      exact hhost hhf hsm
    have hst_i : stackOk c (dataOf i) := fun hemp => absurd hemp hstk
    have hinv1 : cacheInv (crawlItem c i) :=
      crawlItem_inv i c hinv hwfk1.2.1 hok_i hst_i
    obtain ⟨hf1, hf2, hf3⟩ := crawlItem_frame i c
    refine crawlList_inv rest pd (crawlItem c i) hinv1 hwfk1.2.2
      (by rw [hf1]; exact hstk) ?_
    intro hhf hsm
    obtain ⟨top, r2, hpsc, hsome⟩ := hhost hhf (by rw [← hf3]; exact hsm)
    exact ⟨top, r2, by rw [hf2]; exact hpsc, crawlItem_mono i c top hsome⟩
end

theorem resolveOrphans_parents (paths : DefId → Option (List String × ItemType))
    (orphans : List (DefId × ItemData)) :
    ∀ it ∈ resolveOrphans paths orphans, ∀ d, it.parent = some d →
      ∃ fqp k, paths d = some (fqp, k) := by
  induction orphans with
  | nil =>
    intro it hit
    exact absurd hit (List.not_mem_nil it)
  | cons p rest ih =>
    intro it hit d hpar
    obtain ⟨did, item⟩ := p
    simp only [resolveOrphans] at hit
    rcases List.mem_append.mp hit with h | h
    · cases hpd : paths did with
      | none =>
        rw [hpd] at h
        simp at h
      | some fk =>
        obtain ⟨fqp, k⟩ := fk
        rw [hpd] at h
        simp at h
        rw [h] at hpar
        have hdd : did = d := Option.some.inj hpar
        exact ⟨fqp, k, by rw [← hdd]; exact hpd⟩
    · exact ih it h d hpar

/-- Claim C10: every entry serialized by `build_index` carries a parent
identifier exactly when it carries a parent slot (the `assert_eq!` of
`IndexItem::to_json` never fails), and every slot is a valid index into
the emitted `paths` array, because every parent identifier reaching
serialization is recorded in the paths table so the `paths.get(&nodeid)`
unwrap during slot assignment never fails. Stated for any well-formed
declaration tree with a named module root, crawled from a fresh cache. -/
theorem c10_serialization_safety (masked : List Nat) (access : DefId → Bool)
    (primLocs : String → Option DefId) (root : Item)
    (hwf : wfItem root = true)
    (hkind : (dataOf root).kind = ItemType.Module)
    (hname : nameNonemptyB (dataOf root) = true) :
    ∃ st, buildIndex (crawlItem (initCache masked access primLocs) root) = some st ∧
      ∀ it ∈ st.crateItems,
        it.parent.isSome = it.parentIdx.isSome ∧
        ∀ j, it.parentIdx = some j → j < st.slots.cratePaths.length := by
  have hinv0 : cacheInv (initCache masked access primLocs) := by
    constructor
    · intro e he
      exact absurd he (List.not_mem_nil e)
    · intro d fqp k h
      exact Option.noConfusion h
  have hok0 : okUnder (initCache masked access primLocs) (dataOf root) := by
    intro hmk _ _
    rw [hkind] at hmk
    exact absurd hmk (by decide)
  have hst0 : stackOk (initCache masked access primLocs) (dataOf root) :=
    fun _ => ⟨hkind, hname⟩
  have hinv : cacheInv (crawlItem (initCache masked access primLocs) root) :=
    crawlItem_inv root (initCache masked access primLocs) hinv0 hwf hok0 hst0
  set c := crawlItem (initCache masked access primLocs) root with hc
  have hpres : ∀ it ∈ c.searchIndex ++ resolveOrphans c.paths c.orphanImplItems,
      ∀ d, it.parent = some d → ∃ fqp k, c.paths d = some (fqp, k) ∧ fqp ≠ [] := by
    intro it hit d hpar
    rcases List.mem_append.mp hit with h | h
    · have hs := hinv.1 it h d hpar
      obtain ⟨fk, hfk⟩ := Option.isSome_iff_exists.mp hs
      obtain ⟨fqp, k⟩ := fk
      exact ⟨fqp, k, hfk, hinv.2 d fqp k hfk⟩
    · obtain ⟨fqp, k, hfk⟩ := resolveOrphans_parents c.paths c.orphanImplItems it h d hpar
      exact ⟨fqp, k, hfk, hinv.2 d fqp k hfk⟩
  have hslots0 : slotsInv initBuildState.slots := by
    refine ⟨List.nodup_nil, ?_, ?_, rfl, rfl⟩
    · intro p hp
      exact absurd hp (List.not_mem_nil p)
    · intro p hp
      exact absurd hp (List.not_mem_nil p)
  have hitems0 : itemsInv initBuildState := by
    intro it hit
    exact absurd hit (List.not_mem_nil it)
  obtain ⟨st1, hloop, hslots1, hitems1, -, -, -⟩ :=
    buildLoop_master c.paths
      (c.searchIndex ++ resolveOrphans c.paths c.orphanImplItems)
      initBuildState hpres hslots0 hitems0
  refine ⟨st1, hloop, ?_⟩
  intro it hit
  obtain ⟨hnone, hsome⟩ := hitems1 it hit
  constructor
  · cases hp : it.parent with
    | none =>
      rw [hnone hp]
      rfl
    | some d =>
      obtain ⟨-, hidx⟩ := hsome d hp
      rw [hidx]
      rfl
  · intro j hj
    cases hp : it.parent with
    | none =>
      rw [hnone hp] at hj
      exact absurd hj (by simp)
    | some d =>
      obtain ⟨hlk, -⟩ := hsome d hp
      rw [hj] at hlk
      have hmem := lookupId_mem _ d j hlk
      have h2 := hslots1.2.1 (d, j) hmem
      rw [hslots1.2.2.2.1]
      exact h2

/-- The one-module crate used to exercise the serialization-safety
theorem. -/
def c10Root : Item :=
  Item.node { name := some "krate", defId := ⟨0, 0⟩, stripped := false, kind := ItemType.Module } ItemList.nil

/-- A one-module crate exercises the serialization-safety theorem. -/
theorem c10_serialization_safety_witness :
    wfItem c10Root = true ∧
    (dataOf c10Root).kind = ItemType.Module ∧
    nameNonemptyB (dataOf c10Root) = true ∧
    ∃ st, buildIndex (crawlItem (initCache [] (fun _ => true) (fun _ => none))
      c10Root) = some st ∧
      ∀ it ∈ st.crateItems,
        it.parent.isSome = it.parentIdx.isSome ∧
        ∀ j, it.parentIdx = some j → j < st.slots.cratePaths.length :=
  ⟨by decide, by decide, by decide,
    c10_serialization_safety [] (fun _ => true) (fun _ => none) c10Root
      (by decide) (by decide) (by decide)⟩

end RustdocRender
